/-
Verification of the caloud terminal-stream processing core.

Shallow embedding conventions:
- Byte strings are `List Nat` with byte values 0..255 at every concrete input.
- Rust strings are `List Char`; byte positions reported in errors are computed
  with `Char.utf8Size`, matching `str::char_indices`.
- Fallible Rust functions return `Except`/`Option`.
- Loops whose termination is not structural are run on an explicit fuel that
  is provably (or, for the heuristic line-wrap pass, generously) sufficient.
-/
import Mathlib

namespace Caloud

/-! ## input_rewrite/escape.rs -/

/-- Error type of `parse_escaped_str` (src/input_rewrite/escape.rs).
Positions are byte offsets into the UTF-8 string, as in `char_indices`. -/
inductive EscapeError where
  | InvalidHex (pos : Nat)
  | UnknownEscape (pos : Nat) (ch : Char)
  | TrailingBackslash (pos : Nat)
deriving DecidableEq

/-- The value of a hexadecimal digit, as accepted by `u8::from_str_radix`
with radix 16 (`char::to_digit(16)`). -/
def hexDigitVal? (c : Char) : Option Nat :=
  if '0' ≤ c ∧ c ≤ '9' then some (c.toNat - 48)
  else if 'a' ≤ c ∧ c ≤ 'f' then some (c.toNat - 87)
  else if 'A' ≤ c ∧ c ≤ 'F' then some (c.toNat - 55)
  else none

/-- `u8::from_str_radix` with radix 16 applied to the two-character string
`c₁c₂`.  Rust's integer parser accepts an optional leading `+` sign before
the digits, so `+f` parses to 15; a lone sign or any non-digit is an error.
Overflow is impossible for at most two hex digits. -/
def fromStrRadix16Pair (c₁ c₂ : Char) : Option Nat :=
  if c₁ = '+' then hexDigitVal? c₂
  else
    match hexDigitVal? c₁, hexDigitVal? c₂ with
    | some a, some b => some (16 * a + b)
    | _, _ => none

/-- UTF-8 encoding of a character, as `ch.encode_utf8` produces. -/
def charUtf8Bytes (c : Char) : List Nat :=
  let n := c.toNat
  if n < 0x80 then [n]
  else if n < 0x800 then [0xC0 + n / 64, 0x80 + n % 64]
  else if n < 0x10000 then [0xE0 + n / 4096, 0x80 + n / 64 % 64, 0x80 + n % 64]
  else [0xF0 + n / 262144, 0x80 + n / 4096 % 64, 0x80 + n / 64 % 64, 0x80 + n % 64]

/-- Body of `parse_escaped_str` (src/input_rewrite/escape.rs), with `pos` the
byte offset of the next character. -/
def parseEscapedGo (pos : Nat) : List Char → Except EscapeError (List Nat)
  | [] => .ok []
  | c :: cs =>
    if c = '\\' then
      match cs with
      | [] => .error (.TrailingBackslash pos)
      | e :: cs₂ =>
        if e = '\\' then (parseEscapedGo (pos + 2) cs₂).map (0x5C :: ·)
        else if e = 'e' then (parseEscapedGo (pos + 2) cs₂).map (0x1B :: ·)
        else if e = 'n' then (parseEscapedGo (pos + 2) cs₂).map (0x0A :: ·)
        else if e = 'r' then (parseEscapedGo (pos + 2) cs₂).map (0x0D :: ·)
        else if e = 't' then (parseEscapedGo (pos + 2) cs₂).map (0x09 :: ·)
        else if e = 'x' then
          match cs₂ with
          | h₁ :: h₂ :: cs₃ =>
            match fromStrRadix16Pair h₁ h₂ with
            | some b => (parseEscapedGo (pos + 2 + h₁.utf8Size + h₂.utf8Size) cs₃).map (b :: ·)
            | none => .error (.InvalidHex pos)
          | _ => .error (.InvalidHex pos)
        else .error (.UnknownEscape (pos + 1) e)
    else (parseEscapedGo (pos + c.utf8Size) cs).map (charUtf8Bytes c ++ ·)

/-- `parse_escaped_str` (src/input_rewrite/escape.rs). -/
def parseEscapedStr (s : List Char) : Except EscapeError (List Nat) :=
  parseEscapedGo 0 s

/-! ## input_rewrite/rule.rs -/

/-- `RewriteRule` (src/input_rewrite/rule.rs): `fromB` models the `from`
field (`from` is a Lean keyword), `toB` the `to` field. -/
structure RewriteRule where
  fromB : List Nat
  toB : List Nat
deriving DecidableEq

/-- `ParseError` of `RewriteRule::parse` (src/input_rewrite/rule.rs). -/
inductive RuleParseError where
  | MissingColon
  | EmptyFrom
  | EscapeErr (e : EscapeError)
deriving DecidableEq

/-- `str::split_once(':')`: split at the first colon, which is not kept. -/
def splitOnceColon : List Char → Option (List Char × List Char)
  | [] => none
  | c :: cs =>
    if c = ':' then some ([], cs)
    else (splitOnceColon cs).map (fun p => (c :: p.1, p.2))

/-- `RewriteRule::parse` (src/input_rewrite/rule.rs). -/
def RewriteRule.parse (s : List Char) : Except RuleParseError RewriteRule :=
  match splitOnceColon s with
  | none => .error .MissingColon
  | some (fromStr, toStr) =>
    match parseEscapedStr fromStr with
    | .error e => .error (.EscapeErr e)
    | .ok fromBytes =>
      match parseEscapedStr toStr with
      | .error e => .error (.EscapeErr e)
      | .ok toBytes =>
        if fromBytes = [] then .error .EmptyFrom
        else .ok ⟨fromBytes, toBytes⟩

/-! ### Claim C8 -/

/-- C8 (code_bug evidence): the escape grammar is claimed (and documented in
the source, and asserted by the crate's own property tests) to reject a `\x`
escape that is not followed by two hexadecimal digits, yet
`RewriteRule::parse "\x+f:a"` succeeds with FROM = 0x0F: `u8::from_str_radix`
accepts a leading `+` sign, so `+f` decodes as 15. -/
theorem rewrite_rule_parse_accepts_plus_sign_hex :
    RewriteRule.parse ['\\', 'x', '+', 'f', ':', 'a'] =
      .ok ⟨[0x0F], [0x61]⟩ ∧
    ('+' = '0' ∨ '+' < '0' ∨ '9' < '+') ∧ hexDigitVal? '+' = none := by
  refine ⟨by rfl, by decide, by decide⟩

/-! ## tty_text/fragment.rs -/

/-- `EscapeSequence` (src/tty_text/fragment.rs). -/
inductive EscapeSequence where
  | EndSynchronizedUpdate
  | ShowCursor
  | SetWindowAndIconTitle (payload : List Nat)
  | PostNotification (payload : List Nat)
  | Incomplete
  | Other
deriving DecidableEq

/-- The wire form `\x1b[?2026l` matched for `EndSynchronizedUpdate`. -/
def escEndSynchronizedUpdate : List Nat := [0x1B, 0x5B, 0x3F, 0x32, 0x30, 0x32, 0x36, 0x6C]

/-- The wire form `\x1b[?25h` matched for `ShowCursor`. -/
def escShowCursor : List Nat := [0x1B, 0x5B, 0x3F, 0x32, 0x35, 0x68]

/-- The slice `l[i..j]` of a byte string. -/
def slice (l : List Nat) (i j : Nat) : List Nat := (l.drop i).take (j - i)

/-- `windows(2).position(|w| w == [a, b])`: index of the first adjacent pair
`a, b`. -/
def findWindow2? (a b : Nat) : List Nat → Option Nat
  | x :: y :: rest =>
    if x = a ∧ y = b then some 0 else (findWindow2? a b (y :: rest)).map (· + 1)
  | _ => none

/-- OSC terminator search of `EscapeSequence::parse` on `data[2..]`: a BEL
(`0x07`) yields `(2 + i, 1)`; otherwise the first `ESC \` window yields
`(2 + i, 2)`.  BEL wins whenever present, as in `bel.or_else(st)`. -/
def oscTerminator? (t : List Nat) : Option (Nat × Nat) :=
  match t.findIdx? (fun b => decide (b = 0x07)) with
  | some i => some (2 + i, 1)
  | none =>
    match findWindow2? 0x1B 0x5C t with
    | some i => some (2 + i, 2)
    | none => none

/-- The ConEmu OSC 9 heuristic: payload `5`, `10`, `12`, or a first
`;`-separated field made of ASCII digits only (an empty field counts). -/
def hasConemuOsc9Parameter (p : List Nat) : Bool :=
  p = [0x35] ∨ p = [0x31, 0x30] ∨ p = [0x31, 0x32] ∨
    (p.takeWhile (fun b => decide (b ≠ 0x3B))).all (fun b => decide (0x30 ≤ b ∧ b ≤ 0x39))

/-- OSC classification of `EscapeSequence::parse`, by the two-byte
parameter prefix `data[2..min(4, parameter_end)]`. -/
def oscClassify (data : List Nat) (parameterEnd : Nat) : EscapeSequence :=
  let p := slice data 4 parameterEnd
  if slice data 2 (min 4 parameterEnd) = [0x30, 0x3B] then .SetWindowAndIconTitle p
  else if slice data 2 (min 4 parameterEnd) = [0x39, 0x3B] ∧ ¬ hasConemuOsc9Parameter p then
    .PostNotification p
  else .Other

/-- `find_length` of `EscapeSequence::parse`: position of the first final
byte in `lo..=hi` within `data[2..]`, mapped to `2 + i + 1`. -/
def csiFindLength (lo hi : Nat) (t : List Nat) : Option Nat :=
  (t.findIdx? (fun b => decide (lo ≤ b ∧ b ≤ hi))).map (fun i => 2 + i + 1)

/-- `EscapeSequence::parse` (src/tty_text/fragment.rs): returns the consumed
length and the classified tag, `none` when `data` does not start with ESC or
an incomplete sequence may not be emitted. -/
def EscapeSequence.parse (data : List Nat) (allowIncomplete : Bool) :
    Option (Nat × EscapeSequence) :=
  match data with
  | [] => none
  | b₀ :: rest =>
    if b₀ = 0x1B then
      match rest with
      | [] => if allowIncomplete then some ((b₀ :: rest).length, .Incomplete) else none
      | b₁ :: rest₂ =>
        if b₁ = 0x5D then
          match oscTerminator? rest₂ with
          | some (parameterEnd, terminatorLength) =>
            some (parameterEnd + terminatorLength, oscClassify (b₀ :: b₁ :: rest₂) parameterEnd)
          | none => if allowIncomplete then some ((b₀ :: b₁ :: rest₂).length, .Incomplete) else none
        else
          match (if b₁ = 0x5B then csiFindLength 0x40 0x7E rest₂
                 else if 0x40 ≤ b₁ ∧ b₁ < 0x5F then some 2
                 else csiFindLength 0x30 0x7E rest₂) with
          | some n =>
            some (n,
              if (b₀ :: b₁ :: rest₂).take n = escEndSynchronizedUpdate then .EndSynchronizedUpdate
              else if (b₀ :: b₁ :: rest₂).take n = escShowCursor then .ShowCursor
              else .Other)
          | none => if allowIncomplete then some ((b₀ :: b₁ :: rest₂).length, .Incomplete) else none
    else none

/-- `Fragment` (src/tty_text/fragment.rs): a run of bytes plus its
classification (`none` for plain text). -/
structure Fragment where
  data : List Nat
  escape_sequence : Option EscapeSequence
deriving DecidableEq

/-- `Fragment::size`. -/
def Fragment.size (f : Fragment) : Nat := f.data.length

/-- `Fragment::is_plain_text`. -/
def Fragment.is_plain_text (f : Fragment) : Bool := f.escape_sequence = none

/-- The `position(|&b| b == ESC).unwrap_or(data.len())` computation of
`Fragment::parse`. -/
def Fragment.escPos (d : List Nat) : Nat :=
  (d.findIdx? (fun b => decide (b = 0x1B))).getD d.length

/-- The plain-text length of `Fragment::parse`: up to and including the
first newline within the first `n` bytes, or `n` when there is none. -/
def Fragment.plainConsumed (d : List Nat) (n : Nat) : Nat :=
  ((((d.take n).findIdx? (fun b => decide (b = 0x0A)))).map (· + 1)).getD n

/-- `Fragment::parse` (src/tty_text/fragment.rs): carve one fragment off the
front of `data`.  A plain-text run stops before the next ESC and is
additionally cut just after an embedded newline. -/
def Fragment.parse (data : List Nat) (allowIncomplete : Bool) : Option Fragment :=
  if data = [] then none
  else if Fragment.escPos data = 0 then
    (EscapeSequence.parse data allowIncomplete).map fun ce => ⟨data.take ce.1, some ce.2⟩
  else
    some ⟨data.take (Fragment.plainConsumed data (Fragment.escPos data)), none⟩

/-- Fuelled body of `FragmentList::parse`; the fuel bounds the number of
fragments, and `data.length` fuel always suffices since every fragment
consumes at least one byte. -/
def FragmentList.parseGo (allowIncomplete : Bool) : Nat → List Nat → List Fragment
  | 0, _ => []
  | Nat.succ fuel, data =>
    match Fragment.parse data allowIncomplete with
    | none => []
    | some f => f :: FragmentList.parseGo allowIncomplete fuel (data.drop f.size)

/-- `FragmentList::parse` (src/tty_text/fragment.rs). -/
def FragmentList.parse (data : List Nat) (allowIncomplete : Bool) : List Fragment :=
  FragmentList.parseGo allowIncomplete data.length data

/-- `FragmentList::size`: total byte count of the fragments. -/
def FragmentList.size (fs : List Fragment) : Nat := (fs.map Fragment.size).sum

/-! ### Bounds of the fragmenter -/

theorem findWindow2?_bound (a b : Nat) :
    ∀ (l : List Nat) (i : Nat), findWindow2? a b l = some i → i + 2 ≤ l.length := by
  intro l
  induction l with
  | nil => intro i h; simp [findWindow2?] at h
  | cons x xs ih =>
    intro i h
    cases xs with
    | nil => simp [findWindow2?] at h
    | cons y rest =>
      rw [findWindow2?] at h
      split at h
      · cases h
        simp only [List.length_cons]
        omega
      · rw [Option.map_eq_some'] at h
        obtain ⟨j, hj, rfl⟩ := h
        have := ih j hj
        simp at this ⊢
        omega

theorem oscTerminator?_bound {t : List Nat} {pe tl : Nat}
    (h : oscTerminator? t = some (pe, tl)) :
    2 ≤ pe ∧ 1 ≤ tl ∧ pe + tl ≤ t.length + 2 := by
  unfold oscTerminator? at h
  split at h
  · next i hi =>
    cases h
    have := (List.findIdx?_eq_some_iff_findIdx_eq.mp hi).1
    omega
  · split at h
    · next i hw =>
      cases h
      have := findWindow2?_bound 0x1B 0x5C t i hw
      omega
    · cases h

theorem csiFindLength_bound {lo hi : Nat} {t : List Nat} {n : Nat}
    (h : csiFindLength lo hi t = some n) : 3 ≤ n ∧ n ≤ t.length + 2 := by
  unfold csiFindLength at h
  rw [Option.map_eq_some'] at h
  obtain ⟨i, hi, rfl⟩ := h
  have := (List.findIdx?_eq_some_iff_findIdx_eq.mp hi).1
  omega

theorem EscapeSequence.parse_bounds {d : List Nat} {ai : Bool} {c : Nat} {e : EscapeSequence}
    (h : EscapeSequence.parse d ai = some (c, e)) : 1 ≤ c ∧ c ≤ d.length := by
  cases d with
  | nil => simp [EscapeSequence.parse] at h
  | cons b₀ rest =>
    cases rest with
    | nil =>
      simp only [EscapeSequence.parse] at h
      split at h
      · split at h
        · cases h; simp
        · cases h
      · cases h
    | cons b₁ rest₂ =>
      simp only [EscapeSequence.parse] at h
      split at h
      · split at h
        · split at h
          · next pe tl hterm =>
            cases h
            have := oscTerminator?_bound hterm
            simp only [List.length_cons] at this ⊢
            omega
          · split at h
            · cases h; simp
            · cases h
        · split at h
          · next n hn =>
            cases h
            split at hn
            · have := csiFindLength_bound hn
              simp only [List.length_cons] at this ⊢
              omega
            · split at hn
              · cases hn
                simp only [List.length_cons]
                omega
              · have := csiFindLength_bound hn
                simp only [List.length_cons] at this ⊢
                omega
          · split at h
            · cases h; simp
            · cases h
      · cases h

theorem Fragment.escPos_le (d : List Nat) : Fragment.escPos d ≤ d.length := by
  unfold Fragment.escPos
  cases hfi : d.findIdx? (fun b => decide (b = 0x1B)) with
  | none => simp
  | some i =>
    have := (List.findIdx?_eq_some_iff_findIdx_eq.mp hfi).1
    simp
    omega

theorem Fragment.plainConsumed_le (d : List Nat) (n : Nat) :
    Fragment.plainConsumed d n ≤ n := by
  unfold Fragment.plainConsumed
  cases hfi : (d.take n).findIdx? (fun b => decide (b = 0x0A)) with
  | none => simp
  | some i =>
    have := (List.findIdx?_eq_some_iff_findIdx_eq.mp hfi).1
    simp at this ⊢
    omega

theorem Fragment.plainConsumed_pos (d : List Nat) (n : Nat) (hn : 1 ≤ n) :
    1 ≤ Fragment.plainConsumed d n := by
  unfold Fragment.plainConsumed
  cases hfi : (d.take n).findIdx? (fun b => decide (b = 0x0A)) with
  | none => simpa using hn
  | some i => simp

theorem Fragment.parse_spec {d : List Nat} {ai : Bool} {f : Fragment}
    (h : Fragment.parse d ai = some f) :
    f.data = d.take f.size ∧ 1 ≤ f.size ∧ f.size ≤ d.length := by
  rw [Fragment.parse] at h
  split at h
  · cases h
  · next hne =>
    split at h
    · rw [Option.map_eq_some'] at h
      obtain ⟨⟨c, e⟩, hce, rfl⟩ := h
      have hb := EscapeSequence.parse_bounds hce
      have hsz : Fragment.size ⟨d.take c, some e⟩ = c := by
        simp [Fragment.size]
        omega
      refine ⟨by simp [hsz], by rw [hsz]; omega, by rw [hsz]; omega⟩
    · next hesc =>
      cases h
      have hescLe : Fragment.escPos d ≤ d.length := Fragment.escPos_le d
      have hescPos1 : 1 ≤ Fragment.escPos d := by omega
      have hcLe := Fragment.plainConsumed_le d (Fragment.escPos d)
      have hc1 := Fragment.plainConsumed_pos d (Fragment.escPos d) hescPos1
      have hsz : Fragment.size ⟨d.take (Fragment.plainConsumed d (Fragment.escPos d)), none⟩
          = Fragment.plainConsumed d (Fragment.escPos d) := by
        simp [Fragment.size]
        omega
      refine ⟨by simp [hsz], by rw [hsz]; omega, by rw [hsz]; omega⟩

theorem EscapeSequence.parse_total {d : List Nat}
    (hne : d ≠ []) (hhead : d.headI = 0x1B) :
    (EscapeSequence.parse d true).isSome := by
  cases hp : EscapeSequence.parse d true with
  | some v => simp
  | none =>
    exfalso
    cases d with
    | nil => exact hne rfl
    | cons b₀ rest =>
      simp only [List.headI] at hhead
      subst hhead
      cases rest with
      | nil => simp [EscapeSequence.parse] at hp
      | cons b₁ rest₂ =>
        simp only [EscapeSequence.parse, if_true] at hp
        split at hp
        · split at hp <;> simp at hp
        · split at hp <;> simp at hp

theorem Fragment.parse_isSome {d : List Nat} (hne : d ≠ []) :
    (Fragment.parse d true).isSome := by
  rw [Fragment.parse]
  rw [if_neg hne]
  split
  · next hzero =>
    have hhead : d.headI = 0x1B := by
      unfold Fragment.escPos at hzero
      cases hfi : d.findIdx? (fun b => decide (b = 0x1B)) with
      | none =>
        exfalso
        rw [hfi] at hzero
        simp at hzero
        exact hne hzero
      | some i =>
        rw [hfi] at hzero
        simp at hzero
        subst hzero
        obtain ⟨hlt, hp, -⟩ := List.findIdx?_eq_some_iff_getElem.mp hfi
        match d with
        | x :: xs => simpa [List.headI] using of_decide_eq_true (by simpa using hp)
    have := EscapeSequence.parse_total hne hhead
    obtain ⟨v, hv⟩ := Option.isSome_iff_exists.mp this
    simp [hv]
  · simp

/-! ### Claim C6: fragmenter round-trip -/

theorem FragmentList.parseGo_spec (ai : Bool) :
    ∀ (fuel : Nat) (d : List Nat), d.length ≤ fuel →
      ((FragmentList.parseGo ai fuel d).map Fragment.data).flatten
          = d.take (FragmentList.size (FragmentList.parseGo ai fuel d))
        ∧ FragmentList.size (FragmentList.parseGo ai fuel d) ≤ d.length := by
  intro fuel
  induction fuel with
  | zero =>
    intro d hle
    have : d = [] := List.length_eq_zero.mp (Nat.le_zero.mp hle)
    subst this
    simp [FragmentList.parseGo, FragmentList.size]
  | succ fuel ih =>
    intro d hle
    rw [FragmentList.parseGo]
    cases hf : Fragment.parse d ai with
    | none => simp [FragmentList.size]
    | some f =>
      obtain ⟨hdata, h1, hsz⟩ := Fragment.parse_spec hf
      have hrec := ih (d.drop f.size) (by simp; omega)
      obtain ⟨ih1, ih2⟩ := hrec
      constructor
      · simp only [List.map_cons, List.flatten_cons, FragmentList.size, List.sum_cons]
        rw [ih1, hdata, List.take_add]
        rfl
      · simp only [FragmentList.size, List.map_cons, List.sum_cons]
        have : FragmentList.size (FragmentList.parseGo ai fuel (List.drop f.size d))
            ≤ d.length - f.size := by simpa using ih2
        simp only [FragmentList.size] at this
        omega

theorem FragmentList.parseGo_complete :
    ∀ (fuel : Nat) (d : List Nat), d.length ≤ fuel →
      ((FragmentList.parseGo true fuel d).map Fragment.data).flatten = d := by
  intro fuel
  induction fuel with
  | zero =>
    intro d hle
    have : d = [] := List.length_eq_zero.mp (Nat.le_zero.mp hle)
    subst this
    simp [FragmentList.parseGo]
  | succ fuel ih =>
    intro d hle
    rw [FragmentList.parseGo]
    cases hd : decide (d = []) with
    | true =>
      have : d = [] := of_decide_eq_true hd
      subst this
      simp [Fragment.parse]
    | false =>
      have hne : d ≠ [] := of_decide_eq_false hd
      cases hf : Fragment.parse d true with
      | none =>
        exfalso
        have := Fragment.parse_isSome hne
        rw [hf] at this
        simp at this
      | some f =>
        obtain ⟨hdata, h1, hsz⟩ := Fragment.parse_spec hf
        have := ih (d.drop f.size) (by simp; omega)
        simp only [List.map_cons, List.flatten_cons, this, hdata]
        exact List.take_append_drop _ _

/-- C6: for every byte slice `d` and every `allow_incomplete` flag, the
fragments of `FragmentList::parse (d, allow_incomplete)` concatenate, in
order, to a prefix of `d` whose length is the list's `size()`; and with
`allow_incomplete = true` the concatenation is exactly `d` — every input
byte appears exactly once, in order. -/
theorem fragment_list_parse_roundtrip (d : List Nat) (ai : Bool) :
    ((FragmentList.parse d ai).map Fragment.data).flatten
        = d.take (FragmentList.size (FragmentList.parse d ai))
      ∧ (((FragmentList.parse d ai).map Fragment.data).flatten).length
        = FragmentList.size (FragmentList.parse d ai)
      ∧ ((FragmentList.parse d true).map Fragment.data).flatten = d := by
  have h1 := FragmentList.parseGo_spec ai d.length d (le_refl _)
  have h3 := FragmentList.parseGo_complete d.length d (le_refl _)
  unfold FragmentList.parse
  refine ⟨h1.1, ?_, h3⟩
  rw [h1.1]
  have := h1.2
  simp
  omega

/-! ### OSC and CSI unfolding helpers -/

theorem EscapeSequence.parse_osc (rest₂ : List Nat) (ai : Bool) {pe tl : Nat}
    (h : oscTerminator? rest₂ = some (pe, tl)) :
    EscapeSequence.parse (0x1B :: 0x5D :: rest₂) ai
      = some (pe + tl, oscClassify (0x1B :: 0x5D :: rest₂) pe) := by
  simp [EscapeSequence.parse, h]

theorem EscapeSequence.parse_csi (rest₂ : List Nat) (ai : Bool) {i : Nat}
    (h : rest₂.findIdx? (fun b => decide (0x40 ≤ b ∧ b ≤ 0x7E)) = some i) :
    EscapeSequence.parse (0x1B :: 0x5B :: rest₂) ai
      = some (2 + i + 1,
          if (0x1B :: 0x5B :: rest₂).take (2 + i + 1) = escEndSynchronizedUpdate
          then .EndSynchronizedUpdate
          else if (0x1B :: 0x5B :: rest₂).take (2 + i + 1) = escShowCursor then .ShowCursor
          else .Other) := by
  have h' : csiFindLength 0x40 0x7E rest₂ = some (2 + i + 1) := by
    unfold csiFindLength
    rw [h]
    rfl
  simp [EscapeSequence.parse, h']

/-! ### Claim C2 -/

/-- C2 counterexample: the byte sequence ESC [ ? 2 5 l is classified `Other`,
not `EndSynchronizedUpdate`; the wire form the code matches for
`EndSynchronizedUpdate` is ESC [ ? 2 0 2 6 l, which is therefore also not
`Other`. -/
theorem esc_25l_not_end_synchronized_update :
    EscapeSequence.parse [0x1B, 0x5B, 0x3F, 0x32, 0x35, 0x6C] false = some (6, .Other) ∧
    EscapeSequence.parse escEndSynchronizedUpdate false = some (8, .EndSynchronizedUpdate) ∧
    EscapeSequence.Other ≠ EscapeSequence.EndSynchronizedUpdate := by
  refine ⟨by decide, by decide, by decide⟩

/-- C2 (amended): a complete CSI sequence (ESC `[` scanned to the first
final byte in `0x40..=0x7E`, at index `i` of the remainder) is classified
`EndSynchronizedUpdate` exactly when its bytes are ESC [ ? 2 0 2 6 l,
`ShowCursor` exactly when its bytes are ESC [ ? 2 5 h, and `Other`
otherwise. -/
theorem csi_classification (rest₂ : List Nat) (ai : Bool) (i : Nat)
    (h : rest₂.findIdx? (fun b => decide (0x40 ≤ b ∧ b ≤ 0x7E)) = some i) :
    EscapeSequence.parse (0x1B :: 0x5B :: rest₂) ai
      = some (2 + i + 1,
          if (0x1B :: 0x5B :: rest₂).take (2 + i + 1) = escEndSynchronizedUpdate
          then .EndSynchronizedUpdate
          else if (0x1B :: 0x5B :: rest₂).take (2 + i + 1) = escShowCursor then .ShowCursor
          else .Other) :=
  EscapeSequence.parse_csi rest₂ ai h

/-- Witness for `csi_classification` at the concrete input ESC [ ? 2 5 l. -/
theorem csi_classification_witness :
    ([0x3F, 0x32, 0x35, 0x6C].findIdx? (fun b => decide (0x40 ≤ b ∧ b ≤ 0x7E)) = some 3) ∧
    EscapeSequence.parse (0x1B :: 0x5B :: [0x3F, 0x32, 0x35, 0x6C]) false
      = some (2 + 3 + 1,
          if (0x1B :: 0x5B :: [0x3F, 0x32, 0x35, 0x6C]).take (2 + 3 + 1)
              = escEndSynchronizedUpdate then .EndSynchronizedUpdate
          else if (0x1B :: 0x5B :: [0x3F, 0x32, 0x35, 0x6C]).take (2 + 3 + 1)
              = escShowCursor then .ShowCursor
          else .Other) :=
  ⟨by decide, csi_classification [0x3F, 0x32, 0x35, 0x6C] false 3 (by decide)⟩

/-! ### Claim C7 -/

/-- C7: `ESC ] 9 ; Hello World BEL` is a `PostNotification` with payload
exactly `Hello World`; `ESC ] 0 ; My Title ESC \` is a
`SetWindowAndIconTitle` with payload exactly `My Title`; and in general a
terminated OSC with parameter prefix `0;` classifies as title, one with
prefix `9;` classifies as notification unless the ConEmu numeric-code
heuristic matches the payload, in which case it classifies as `Other`. -/
theorem osc_classification :
    (EscapeSequence.parse
        ([0x1B, 0x5D, 0x39, 0x3B] ++
          [0x48, 0x65, 0x6C, 0x6C, 0x6F, 0x20, 0x57, 0x6F, 0x72, 0x6C, 0x64] ++ [0x07]) false
      = some (16, .PostNotification
          [0x48, 0x65, 0x6C, 0x6C, 0x6F, 0x20, 0x57, 0x6F, 0x72, 0x6C, 0x64])) ∧
    (EscapeSequence.parse
        ([0x1B, 0x5D, 0x30, 0x3B] ++
          [0x4D, 0x79, 0x20, 0x54, 0x69, 0x74, 0x6C, 0x65] ++ [0x1B, 0x5C]) false
      = some (14, .SetWindowAndIconTitle [0x4D, 0x79, 0x20, 0x54, 0x69, 0x74, 0x6C, 0x65])) ∧
    (∀ (rest₂ : List Nat) (ai : Bool) (pe tl : Nat),
      oscTerminator? rest₂ = some (pe, tl) →
      slice (0x1B :: 0x5D :: rest₂) 2 (min 4 pe) = [0x30, 0x3B] →
      EscapeSequence.parse (0x1B :: 0x5D :: rest₂) ai
        = some (pe + tl, .SetWindowAndIconTitle (slice (0x1B :: 0x5D :: rest₂) 4 pe))) ∧
    (∀ (rest₂ : List Nat) (ai : Bool) (pe tl : Nat),
      oscTerminator? rest₂ = some (pe, tl) →
      slice (0x1B :: 0x5D :: rest₂) 2 (min 4 pe) = [0x39, 0x3B] →
      hasConemuOsc9Parameter (slice (0x1B :: 0x5D :: rest₂) 4 pe) = false →
      EscapeSequence.parse (0x1B :: 0x5D :: rest₂) ai
        = some (pe + tl, .PostNotification (slice (0x1B :: 0x5D :: rest₂) 4 pe))) ∧
    (∀ (rest₂ : List Nat) (ai : Bool) (pe tl : Nat),
      oscTerminator? rest₂ = some (pe, tl) →
      slice (0x1B :: 0x5D :: rest₂) 2 (min 4 pe) = [0x39, 0x3B] →
      hasConemuOsc9Parameter (slice (0x1B :: 0x5D :: rest₂) 4 pe) = true →
      EscapeSequence.parse (0x1B :: 0x5D :: rest₂) ai = some (pe + tl, .Other)) := by
  refine ⟨by decide, by decide, ?_, ?_, ?_⟩
  · intro rest₂ ai pe tl hterm hpre
    rw [EscapeSequence.parse_osc rest₂ ai hterm]
    simp [oscClassify, hpre]
  · intro rest₂ ai pe tl hterm hpre hcon
    rw [EscapeSequence.parse_osc rest₂ ai hterm]
    simp [oscClassify, hpre, hcon]
  · intro rest₂ ai pe tl hterm hpre hcon
    rw [EscapeSequence.parse_osc rest₂ ai hterm]
    simp [oscClassify, hpre, hcon]

/-- Witness for `osc_classification` at `ESC ] 0 ; My Title ESC \`. -/
theorem osc_classification_witness :
    (oscTerminator? ([0x30, 0x3B] ++
        [0x4D, 0x79, 0x20, 0x54, 0x69, 0x74, 0x6C, 0x65] ++ [0x1B, 0x5C]) = some (12, 2)) ∧
    (slice (0x1B :: 0x5D :: ([0x30, 0x3B] ++
        [0x4D, 0x79, 0x20, 0x54, 0x69, 0x74, 0x6C, 0x65] ++ [0x1B, 0x5C])) 2 (min 4 12)
      = [0x30, 0x3B]) ∧
    EscapeSequence.parse (0x1B :: 0x5D :: ([0x30, 0x3B] ++
        [0x4D, 0x79, 0x20, 0x54, 0x69, 0x74, 0x6C, 0x65] ++ [0x1B, 0x5C])) false
      = some (12 + 2, .SetWindowAndIconTitle (slice (0x1B :: 0x5D :: ([0x30, 0x3B] ++
          [0x4D, 0x79, 0x20, 0x54, 0x69, 0x74, 0x6C, 0x65] ++ [0x1B, 0x5C])) 4 12)) :=
  ⟨by decide, by decide,
    osc_classification.2.2.1 _ false 12 2 (by decide) (by decide)⟩

/-! ### Claim C10 -/

/-- C10: a terminated OSC with parameter prefix `9;` whose payload's first
`;`-separated field is all ASCII digits — including a completely empty
payload, such as ESC ] 9 ; BEL — is classified `Other`, never
`PostNotification`; payloads `5`, `10`, `12` likewise. -/
theorem osc9_numeric_first_field_is_other :
    (EscapeSequence.parse [0x1B, 0x5D, 0x39, 0x3B, 0x07] false = some (5, .Other)) ∧
    (EscapeSequence.parse [0x1B, 0x5D, 0x39, 0x3B, 0x35, 0x07] false = some (6, .Other)) ∧
    (EscapeSequence.parse [0x1B, 0x5D, 0x39, 0x3B, 0x31, 0x30, 0x07] false
      = some (7, .Other)) ∧
    (EscapeSequence.parse [0x1B, 0x5D, 0x39, 0x3B, 0x31, 0x32, 0x07] false
      = some (7, .Other)) ∧
    (∀ (rest₂ : List Nat) (ai : Bool) (pe tl : Nat),
      oscTerminator? rest₂ = some (pe, tl) →
      slice (0x1B :: 0x5D :: rest₂) 2 (min 4 pe) = [0x39, 0x3B] →
      ((slice (0x1B :: 0x5D :: rest₂) 4 pe).takeWhile (fun b => decide (b ≠ 0x3B))).all
          (fun b => decide (0x30 ≤ b ∧ b ≤ 0x39)) = true →
      EscapeSequence.parse (0x1B :: 0x5D :: rest₂) ai = some (pe + tl, .Other) ∧
      ∀ payload, EscapeSequence.parse (0x1B :: 0x5D :: rest₂) ai
        ≠ some (pe + tl, .PostNotification payload)) := by
  refine ⟨by decide, by decide, by decide, by decide, ?_⟩
  intro rest₂ ai pe tl hterm hpre hdigits
  have hcon : hasConemuOsc9Parameter (slice (0x1B :: 0x5D :: rest₂) 4 pe) = true := by
    simp only [hasConemuOsc9Parameter]
    simp at hdigits ⊢
    tauto
  have hother : EscapeSequence.parse (0x1B :: 0x5D :: rest₂) ai = some (pe + tl, .Other) := by
    rw [EscapeSequence.parse_osc rest₂ ai hterm]
    simp [oscClassify, hpre, hcon]
  refine ⟨hother, fun payload hcontra => ?_⟩
  rw [hother] at hcontra
  simp at hcontra

/-- Witness for `osc9_numeric_first_field_is_other` at ESC ] 9 ; BEL. -/
theorem osc9_numeric_first_field_is_other_witness :
    (oscTerminator? [0x39, 0x3B, 0x07] = some (4, 1)) ∧
    (slice (0x1B :: 0x5D :: [0x39, 0x3B, 0x07]) 2 (min 4 4) = [0x39, 0x3B]) ∧
    (((slice (0x1B :: 0x5D :: [0x39, 0x3B, 0x07]) 4 4).takeWhile
        (fun b => decide (b ≠ 0x3B))).all (fun b => decide (0x30 ≤ b ∧ b ≤ 0x39)) = true) ∧
    (EscapeSequence.parse (0x1B :: 0x5D :: [0x39, 0x3B, 0x07]) false = some (4 + 1, .Other) ∧
      ∀ payload, EscapeSequence.parse (0x1B :: 0x5D :: [0x39, 0x3B, 0x07]) false
        ≠ some (4 + 1, .PostNotification payload)) :=
  ⟨by decide, by decide, by decide,
    osc9_numeric_first_field_is_other.2.2.2.2 [0x39, 0x3B, 0x07] false 4 1
      (by decide) (by decide) (by decide)⟩

/-! ## tty_text/buffer.rs -/

/-- `Buffer<N>` (src/tty_text/buffer.rs): a fixed array of `N` bytes with the
unconsumed region delimited by `start` and `endPos` (the Rust field `end`,
which is a Lean keyword). -/
structure Buffer where
  data : List Nat
  start : Nat
  endPos : Nat
deriving DecidableEq

/-- `Buffer::new`. -/
def Buffer.new (N : Nat) : Buffer := ⟨List.replicate N 0, 0, 0⟩

/-- `Buffer::is_full`. -/
def Buffer.is_full (N : Nat) (b : Buffer) : Bool := b.start = 0 ∧ b.endPos = N

/-- `data.copy_within(start..end, 0)`: the bytes of `[start, end)` are copied
to offset 0; positions from `end - start` on keep their old values. -/
def copyWithin (data : List Nat) (start endPos : Nat) : List Nat :=
  slice data start endPos ++ data.drop (endPos - start)

/-- The compaction step at the top of `Buffer::extend_from_read`, guarded by
`0 < self.start && N <= 2 * self.end`. -/
def Buffer.compactIfNeeded (N : Nat) (b : Buffer) : Buffer :=
  if 0 < b.start ∧ N ≤ 2 * b.endPos then
    ⟨copyWithin b.data b.start b.endPos, 0, b.endPos - b.start⟩
  else b

/-- `Buffer::extend_from_read` (src/tty_text/buffer.rs): compact if needed,
then read into `data[end..]`.  The underlying source is modelled as the byte
list `input`; the read deposits `n = min (input.length, N - end)` bytes and
returns `n`. -/
def Buffer.extend_from_read (N : Nat) (b : Buffer) (input : List Nat) : Buffer × Nat :=
  let b₁ := Buffer.compactIfNeeded N b
  let n := min input.length (N - b₁.endPos)
  (⟨b₁.data.take b₁.endPos ++ input.take n ++ b₁.data.drop (b₁.endPos + n),
    b₁.start, b₁.endPos + n⟩, n)

/-- `Buffer::parse` (src/tty_text/buffer.rs, without the
`line-wrapping-adjustment` feature): fragment the unconsumed region with
`allow_incomplete = is_full()` and advance `start` by the consumed size. -/
def Buffer.parse (N : Nat) (b : Buffer) : Buffer × List Fragment :=
  let fragments := FragmentList.parse (slice b.data b.start b.endPos) (Buffer.is_full N b)
  (⟨b.data, b.start + FragmentList.size fragments, b.endPos⟩, fragments)

/-- Well-formedness of a buffer: `0 ≤ start ≤ end ≤ N` with backing array of
length `N`. -/
abbrev Buffer.WF (N : Nat) (b : Buffer) : Prop :=
  b.start ≤ b.endPos ∧ b.endPos ≤ N ∧ b.data.length = N

/-! ### Claim C4 -/

/-- C4 counterexample: with capacity 4 and `start = 1`, `end = 2`, the
unconsumed region holds 1 byte — less than half the capacity — yet
`extend_from_read` (here with an empty read) compacts, moving `start` to 0:
the code's guard is `0 < start ∧ N ≤ 2 * end`, which tests `end`, not
`end - start`. -/
theorem extend_from_read_compacts_small_region :
    ((Buffer.extend_from_read 4 ⟨[9, 8, 7, 6], 1, 2⟩ []).1.start = 0 ∧
     (Buffer.extend_from_read 4 ⟨[9, 8, 7, 6], 1, 2⟩ []).1.endPos = 1) ∧
    2 * (2 - 1) < 4 := by decide

/-- C4 (amended): `extend_from_read` moves the unconsumed region `[start,end)`
to offset 0 before reading if and only if `0 < start` and `2 * end ≥ N`;
otherwise `start` and `end` are unchanged before the read appends.  The moved
bytes are exactly the old unconsumed region, and the read step never changes
`start`. -/
theorem extend_from_read_compaction_condition (N : Nat) (b : Buffer) (input : List Nat)
    (hwf : Buffer.WF N b) :
    (0 < b.start ∧ N ≤ 2 * b.endPos →
      (Buffer.compactIfNeeded N b).start = 0 ∧
      (Buffer.compactIfNeeded N b).endPos = b.endPos - b.start ∧
      slice (Buffer.compactIfNeeded N b).data 0 (b.endPos - b.start)
        = slice b.data b.start b.endPos) ∧
    (¬(0 < b.start ∧ N ≤ 2 * b.endPos) → Buffer.compactIfNeeded N b = b) ∧
    (Buffer.extend_from_read N b input).1.start = (Buffer.compactIfNeeded N b).start := by
  obtain ⟨h₁, h₂, h₃⟩ := hwf
  refine ⟨fun hc => ?_, fun hc => ?_, ?_⟩
  · rw [Buffer.compactIfNeeded, if_pos hc]
    refine ⟨rfl, rfl, ?_⟩
    show ((copyWithin b.data b.start b.endPos).drop 0).take (b.endPos - b.start - 0) = _
    rw [List.drop_zero, Nat.sub_zero, copyWithin]
    have hlen : (slice b.data b.start b.endPos).length = b.endPos - b.start := by
      simp [slice]
      omega
    rw [List.take_left' hlen]
  · rw [Buffer.compactIfNeeded, if_neg hc]
  · rfl

/-- Witness for `extend_from_read_compaction_condition` at a compacting
state. -/
theorem extend_from_read_compaction_condition_witness :
    Buffer.WF 4 ⟨[9, 8, 7, 6], 1, 3⟩ ∧
    ((0 < 1 ∧ 4 ≤ 2 * 3 →
      (Buffer.compactIfNeeded 4 ⟨[9, 8, 7, 6], 1, 3⟩).start = 0 ∧
      (Buffer.compactIfNeeded 4 ⟨[9, 8, 7, 6], 1, 3⟩).endPos = 3 - 1 ∧
      slice (Buffer.compactIfNeeded 4 ⟨[9, 8, 7, 6], 1, 3⟩).data 0 (3 - 1)
        = slice [9, 8, 7, 6] 1 3) ∧
    (¬(0 < 1 ∧ 4 ≤ 2 * 3) → Buffer.compactIfNeeded 4 ⟨[9, 8, 7, 6], 1, 3⟩ = ⟨[9, 8, 7, 6], 1, 3⟩) ∧
    (Buffer.extend_from_read 4 ⟨[9, 8, 7, 6], 1, 3⟩ [5]).1.start
      = (Buffer.compactIfNeeded 4 ⟨[9, 8, 7, 6], 1, 3⟩).start) :=
  ⟨by decide, extend_from_read_compaction_condition 4 ⟨[9, 8, 7, 6], 1, 3⟩ [5] (by decide)⟩

/-! ### Claim C9 -/

/-- C9: `new`, `extend_from_read` (in any state and for any read), and
`parse` preserve `0 ≤ start ≤ end ≤ N`; `parse` never decreases `start`;
`extend_from_read` leaves `start` unchanged when the compaction guard does
not fire; and `is_full` holds exactly when `start = 0 ∧ end = N`. -/
theorem buffer_invariant (N : Nat) :
    (Buffer.WF N (Buffer.new N) ∧ (Buffer.new N).start = 0 ∧ (Buffer.new N).endPos = 0) ∧
    (∀ (b : Buffer) (input : List Nat), Buffer.WF N b →
      Buffer.WF N (Buffer.extend_from_read N b input).1) ∧
    (∀ b : Buffer, Buffer.WF N b →
      Buffer.WF N (Buffer.parse N b).1 ∧ b.start ≤ (Buffer.parse N b).1.start ∧
      (Buffer.parse N b).1.endPos = b.endPos) ∧
    (∀ (b : Buffer) (input : List Nat), ¬(0 < b.start ∧ N ≤ 2 * b.endPos) →
      (Buffer.extend_from_read N b input).1.start = b.start) ∧
    (∀ b : Buffer, Buffer.is_full N b = true ↔ b.start = 0 ∧ b.endPos = N) := by
  refine ⟨⟨⟨Nat.le_refl 0, Nat.zero_le N, by simp [Buffer.new]⟩, rfl, rfl⟩, ?_, ?_, ?_, ?_⟩
  · intro b input hwf
    obtain ⟨h₁, h₂, h₃⟩ := hwf
    have hcwf : Buffer.WF N (Buffer.compactIfNeeded N b) := by
      rw [Buffer.compactIfNeeded]
      split
      · refine ⟨Nat.zero_le _, by show b.endPos - b.start ≤ N; omega, ?_⟩
        show (copyWithin b.data b.start b.endPos).length = N
        simp [copyWithin, slice]
        omega
      · exact ⟨h₁, h₂, h₃⟩
    obtain ⟨hc₁, hc₂, hc₃⟩ := hcwf
    refine ⟨by simp [Buffer.extend_from_read]; omega, by simp [Buffer.extend_from_read]; omega, ?_⟩
    simp [Buffer.extend_from_read]
    omega
  · intro b hwf
    obtain ⟨h₁, h₂, h₃⟩ := hwf
    have hle : FragmentList.size (FragmentList.parse (slice b.data b.start b.endPos)
        (Buffer.is_full N b)) ≤ (slice b.data b.start b.endPos).length :=
      (FragmentList.parseGo_spec (Buffer.is_full N b)
        (slice b.data b.start b.endPos).length (slice b.data b.start b.endPos) (le_refl _)).2
    have hslen : (slice b.data b.start b.endPos).length = b.endPos - b.start := by
      simp [slice]
      omega
    rw [hslen] at hle
    refine ⟨⟨?_, h₂, h₃⟩, ?_, rfl⟩
    · show b.start + _ ≤ b.endPos
      have : FragmentList.size (FragmentList.parse (slice b.data b.start b.endPos)
          (Buffer.is_full N b)) ≤ b.endPos - b.start := hle
      omega
    · exact Nat.le_add_right _ _
  · intro b input hnc
    simp [Buffer.extend_from_read, Buffer.compactIfNeeded, if_neg hnc]
  · intro b
    simp [Buffer.is_full]

/-- Witness for `buffer_invariant` at a concrete state and read. -/
theorem buffer_invariant_witness :
    Buffer.WF 4 ⟨[9, 8, 7, 6], 1, 3⟩ ∧
    Buffer.WF 4 (Buffer.extend_from_read 4 ⟨[9, 8, 7, 6], 1, 3⟩ [5, 5]).1 :=
  ⟨by decide, (buffer_invariant 4).2.1 ⟨[9, 8, 7, 6], 1, 3⟩ [5, 5] (by decide)⟩

/-! ## input_rewrite/rewriter.rs -/

/-- The deduplication of `InputRewriter::new`: a rule is dropped when its
`from` was already `seen` (first occurrence wins). -/
def dedupRules (seen : List (List Nat)) : List RewriteRule → List RewriteRule
  | [] => []
  | r :: rs =>
    if r.fromB ∈ seen then dedupRules seen rs
    else r :: dedupRules (r.fromB :: seen) rs

/-- One insertion step of a stable sort by descending `from` length. -/
def insertByLenDesc (r : RewriteRule) : List RewriteRule → List RewriteRule
  | [] => [r]
  | x :: xs =>
    if x.fromB.length ≤ r.fromB.length then r :: x :: xs
    else x :: insertByLenDesc r xs

/-- The `sort_by_key(|rule| usize::MAX - rule.from().len())` of
`InputRewriter::new`: a stable sort by descending `from` length.  Rust's
`sort_by_key` is stable, and a stable sort is a function of the key order
alone, so this insertion sort produces the same list. -/
def sortRulesByLenDesc (rules : List RewriteRule) : List RewriteRule :=
  rules.foldr insertByLenDesc []

/-- `InputRewriter::new` (src/input_rewrite/rewriter.rs): deduplicate by
`from` (first wins), then stably sort by descending `from` length.  The
rewriter state is this rule list plus the pending-byte buffer. -/
def InputRewriter.new (rules : List RewriteRule) : List RewriteRule :=
  sortRulesByLenDesc (dedupRules [] rules)

/-- The deferral test of `InputRewriter::drain`: some rule's `from` is
strictly longer than the remaining bytes and starts with them. -/
def mightMatchLongerRule (rules : List RewriteRule) (remaining : List Nat) : Bool :=
  rules.any fun r =>
    decide (remaining.length < r.fromB.length) && remaining.isPrefixOf r.fromB

/-- The rule-matching scan of `InputRewriter::drain`: the first rule in
order whose `from` is a prefix of the remaining bytes. -/
def firstMatch (rules : List RewriteRule) (remaining : List Nat) : Option RewriteRule :=
  rules.find? fun r => r.fromB.isPrefixOf remaining

/-- Fuelled body of `InputRewriter::drain`: returns the bytes written and
the bytes left pending.  `buffer.length` fuel suffices when every `from` is
non-empty (an empty `from` would loop forever in the source as well). -/
def drainGo (rules : List RewriteRule) (force : Bool) : Nat → List Nat → List Nat × List Nat
  | _, [] => ([], [])
  | 0, buf => ([], buf)
  | Nat.succ fuel, hd :: tl =>
    if !force && mightMatchLongerRule rules (hd :: tl) then ([], hd :: tl)
    else
      match firstMatch rules (hd :: tl) with
      | some r =>
        let p := drainGo rules force fuel ((hd :: tl).drop r.fromB.length)
        (r.toB ++ p.1, p.2)
      | none =>
        let p := drainGo rules force fuel tl
        (hd :: p.1, p.2)

/-- `InputRewriter::drain` (src/input_rewrite/rewriter.rs) as a pure
function on the pending buffer. -/
def drain (rules : List RewriteRule) (force : Bool) (buffer : List Nat) :
    List Nat × List Nat :=
  drainGo rules force buffer.length buffer

/-- The chunked feeding protocol of the claim: each chunk is appended via
`push` and drained with `force = false`; end-of-stream performs one final
drain with `force = true`.  Returns cumulative output and final buffer. -/
def runChunks (rules : List RewriteRule) : List (List Nat) → List Nat → List Nat × List Nat
  | [], buffer => drain rules true buffer
  | c :: cs, buffer =>
    let p := drain rules false (buffer ++ c)
    let q := runChunks rules cs p.2
    (p.1 ++ q.1, q.2)

/-- The claim's tie-break: among the rules whose `from` matches at the
current position, the longest wins and the first-listed wins ties. -/
def pickLongestRule : List RewriteRule → List Nat → Option RewriteRule
  | [], _ => none
  | r :: rs, input =>
    match pickLongestRule rs input with
    | none => if r.fromB.isPrefixOf input then some r else none
    | some q =>
      if r.fromB.isPrefixOf input ∧ q.fromB.length ≤ r.fromB.length then some r else some q

/-- The single-pass reference transform of the claim (and of the crate's
`rewrite_bytes_naively` property-test oracle): at each position apply the
longest matching rule's `to` (first-listed wins ties) or pass one byte
through. -/
def naiveRewriteGo (rules : List RewriteRule) : Nat → List Nat → List Nat
  | _, [] => []
  | 0, _ => []
  | Nat.succ fuel, hd :: tl =>
    match pickLongestRule rules (hd :: tl) with
    | some r => r.toB ++ naiveRewriteGo rules fuel ((hd :: tl).drop r.fromB.length)
    | none => hd :: naiveRewriteGo rules fuel tl

/-- The reference transform at its natural fuel. -/
def naiveRewrite (rules : List RewriteRule) (input : List Nat) : List Nat :=
  naiveRewriteGo rules input.length input

/-! ### Rule-set structure lemmas -/

/-- A list sorted by descending `from` length. -/
def sortedByLenDesc (l : List RewriteRule) : Prop :=
  l.Pairwise fun a b => b.fromB.length ≤ a.fromB.length

theorem dedupRules_eq_self :
    ∀ (rules : List RewriteRule) (seen : List (List Nat)),
      (∀ r ∈ rules, r.fromB ∉ seen) →
      rules.Pairwise (fun a b => a.fromB ≠ b.fromB) →
      dedupRules seen rules = rules := by
  intro rules
  induction rules with
  | nil => intro seen _ _; rfl
  | cons r rs ih =>
    intro seen hseen hpw
    rw [dedupRules, if_neg (hseen r (by simp))]
    congr 1
    apply ih
    · intro q hq
      rw [List.mem_cons]
      push_neg
      refine ⟨?_, hseen q (List.mem_cons_of_mem r hq)⟩
      exact fun he => (List.pairwise_cons.mp hpw).1 q hq he.symm
    · exact (List.pairwise_cons.mp hpw).2

theorem eq_of_mem_of_fromB_eq :
    ∀ {rules : List RewriteRule},
      rules.Pairwise (fun a b => a.fromB ≠ b.fromB) →
      ∀ {r q : RewriteRule}, r ∈ rules → q ∈ rules → r.fromB = q.fromB → r = q := by
  intro rules
  induction rules with
  | nil => intro _ r q hr _ _; cases hr
  | cons a l ih =>
    intro hpw r q hr hq heq
    rcases List.mem_cons.mp hr with rfl | hr'
    · rcases List.mem_cons.mp hq with rfl | hq'
      · rfl
      · exact absurd heq ((List.pairwise_cons.mp hpw).1 q hq')
    · rcases List.mem_cons.mp hq with rfl | hq'
      · exact absurd heq.symm ((List.pairwise_cons.mp hpw).1 r hr')
      · exact ih (List.pairwise_cons.mp hpw).2 hr' hq' heq

theorem mem_insertByLenDesc {x r : RewriteRule} :
    ∀ {l : List RewriteRule}, x ∈ insertByLenDesc r l ↔ x = r ∨ x ∈ l := by
  intro l
  induction l with
  | nil => simp [insertByLenDesc]
  | cons a as ih =>
    rw [insertByLenDesc]
    split
    · simp
    · rw [List.mem_cons, ih, List.mem_cons]
      tauto

theorem mem_sortRulesByLenDesc {x : RewriteRule} :
    ∀ {rules : List RewriteRule}, x ∈ sortRulesByLenDesc rules ↔ x ∈ rules := by
  intro rules
  induction rules with
  | nil => simp [sortRulesByLenDesc]
  | cons a as ih =>
    show x ∈ insertByLenDesc a (sortRulesByLenDesc as) ↔ _
    rw [mem_insertByLenDesc, ih, List.mem_cons]

theorem sorted_insertByLenDesc {r : RewriteRule} :
    ∀ {l : List RewriteRule}, sortedByLenDesc l → sortedByLenDesc (insertByLenDesc r l) := by
  intro l
  induction l with
  | nil => intro _; simp [insertByLenDesc, sortedByLenDesc]
  | cons a as ih =>
    intro hs
    obtain ⟨hhead, htail⟩ := List.pairwise_cons.mp hs
    rw [insertByLenDesc]
    split
    · next hle =>
      refine List.pairwise_cons.mpr ⟨?_, hs⟩
      intro y hy
      rcases List.mem_cons.mp hy with rfl | hy'
      · exact hle
      · exact le_trans (hhead y hy') hle
    · next hgt =>
      refine List.pairwise_cons.mpr ⟨?_, ih htail⟩
      intro y hy
      rcases mem_insertByLenDesc.mp hy with rfl | hy'
      · omega
      · exact hhead y hy'

theorem sorted_sortRulesByLenDesc :
    ∀ (rules : List RewriteRule), sortedByLenDesc (sortRulesByLenDesc rules) := by
  intro rules
  induction rules with
  | nil => simp [sortRulesByLenDesc, sortedByLenDesc]
  | cons a as ih => exact sorted_insertByLenDesc ih

/-! ### Match-selection characterizations -/

theorem firstMatch_none {rules : List RewriteRule} {b : List Nat}
    (h : firstMatch rules b = none) : ∀ r ∈ rules, ¬ r.fromB <+: b := by
  intro r hr
  have := List.find?_eq_none.mp h r hr
  simpa [ List.isPrefixOf_iff_prefix] using this

theorem firstMatch_some_sorted :
    ∀ {l : List RewriteRule} {b : List Nat} {r : RewriteRule},
      sortedByLenDesc l → firstMatch l b = some r →
      r ∈ l ∧ r.fromB <+: b ∧
        ∀ q ∈ l, q.fromB <+: b → q.fromB.length ≤ r.fromB.length := by
  intro l
  induction l with
  | nil => intro b r _ h; simp [firstMatch] at h
  | cons a as ih =>
    intro b r hs h
    obtain ⟨hhead, htail⟩ := List.pairwise_cons.mp hs
    simp only [firstMatch, List.find?] at h
    by_cases hp : a.fromB.isPrefixOf b
    · simp only [hp] at h
      cases h
      refine ⟨List.mem_cons_self a as, List.isPrefixOf_iff_prefix.mp hp, ?_⟩
      intro q hq _
      rcases List.mem_cons.mp hq with rfl | hq'
      · exact le_refl _
      · exact hhead q hq'
    · rw [Bool.not_eq_true] at hp
      simp only [hp] at h
      obtain ⟨hm, hpre, hmax⟩ := ih htail h
      refine ⟨List.mem_cons_of_mem a hm, hpre, ?_⟩
      intro q hq hqp
      rcases List.mem_cons.mp hq with rfl | hq'
      · have : q.fromB.isPrefixOf b = true := List.isPrefixOf_iff_prefix.mpr hqp
        rw [hp] at this
        cases this
      · exact hmax q hq' hqp

theorem pickLongestRule_eq_none :
    ∀ {rules : List RewriteRule} {b : List Nat},
      pickLongestRule rules b = none → ∀ r ∈ rules, ¬ r.fromB <+: b := by
  intro rules
  induction rules with
  | nil => intro b _ r hr; cases hr
  | cons a as ih =>
    intro b h r hr
    simp only [pickLongestRule] at h
    cases hp : pickLongestRule as b with
    | none =>
      simp only [hp] at h
      rcases List.mem_cons.mp hr with rfl | hr'
      · intro hpre
        rw [if_pos ( List.isPrefixOf_iff_prefix.mpr hpre)] at h
        cases h
      · exact ih hp r hr'
    | some q =>
      simp only [hp] at h
      exfalso
      by_cases hc : a.fromB.isPrefixOf b = true ∧ q.fromB.length ≤ a.fromB.length
      · rw [if_pos hc] at h; cases h
      · rw [if_neg hc] at h; cases h

theorem pickLongestRule_some :
    ∀ {rules : List RewriteRule} {b : List Nat} {r : RewriteRule},
      pickLongestRule rules b = some r →
      r ∈ rules ∧ r.fromB <+: b ∧
        ∀ q ∈ rules, q.fromB <+: b → q.fromB.length ≤ r.fromB.length := by
  intro rules
  induction rules with
  | nil => intro b r h; simp [pickLongestRule] at h
  | cons a as ih =>
    intro b r h
    simp only [pickLongestRule] at h
    cases hp : pickLongestRule as b with
    | none =>
      simp only [hp] at h
      by_cases ha : a.fromB.isPrefixOf b = true
      · rw [if_pos ha] at h
        cases h
        refine ⟨List.mem_cons_self a as, List.isPrefixOf_iff_prefix.mp ha, ?_⟩
        intro q hq hqp
        rcases List.mem_cons.mp hq with rfl | hq'
        · exact le_refl _
        · exact absurd hqp (pickLongestRule_eq_none hp q hq')
      · rw [if_neg ha] at h
        cases h
    | some q =>
      simp only [hp] at h
      obtain ⟨hqm, hqp, hqmax⟩ := ih hp
      by_cases hcond : a.fromB.isPrefixOf b = true ∧ q.fromB.length ≤ a.fromB.length
      · rw [if_pos hcond] at h
        cases h
        refine ⟨List.mem_cons_self a as, List.isPrefixOf_iff_prefix.mp hcond.1, ?_⟩
        intro x hx hxp
        rcases List.mem_cons.mp hx with rfl | hx'
        · exact le_refl _
        · exact le_trans (hqmax x hx' hxp) hcond.2
      · rw [if_neg hcond] at h
        cases h
        refine ⟨List.mem_cons_of_mem a hqm, hqp, ?_⟩
        intro x hx hxp
        rcases List.mem_cons.mp hx with rfl | hx'
        · by_cases hxpre : x.fromB.isPrefixOf b = true
          · push_neg at hcond
            have := hcond hxpre
            omega
          · exact absurd ( List.isPrefixOf_iff_prefix.mpr hxp) hxpre
        · exact hqmax x hx' hxp

theorem firstMatch_new_eq_pickLongest {rules : List RewriteRule}
    (hpw : rules.Pairwise (fun a b => a.fromB ≠ b.fromB)) (b : List Nat) :
    firstMatch (InputRewriter.new rules) b = pickLongestRule rules b := by
  have hded : dedupRules [] rules = rules := dedupRules_eq_self rules [] (by simp) hpw
  have hSR : InputRewriter.new rules = sortRulesByLenDesc rules := by
    rw [InputRewriter.new, hded]
  have hmem : ∀ x : RewriteRule, x ∈ InputRewriter.new rules ↔ x ∈ rules := by
    intro x
    rw [hSR]
    exact mem_sortRulesByLenDesc
  have hsort : sortedByLenDesc (InputRewriter.new rules) := by
    rw [hSR]
    exact sorted_sortRulesByLenDesc rules
  cases hf : firstMatch (InputRewriter.new rules) b with
  | none =>
    cases hp : pickLongestRule rules b with
    | none => rfl
    | some q =>
      obtain ⟨hqm, hqp, -⟩ := pickLongestRule_some hp
      exact absurd hqp (firstMatch_none hf q ((hmem q).mpr hqm))
  | some r =>
    obtain ⟨hrm, hrp, hrmax⟩ := firstMatch_some_sorted hsort hf
    cases hp : pickLongestRule rules b with
    | none => exact absurd hrp (pickLongestRule_eq_none hp r ((hmem r).mp hrm))
    | some q =>
      obtain ⟨hqm, hqp, hqmax⟩ := pickLongestRule_some hp
      have h₁ : q.fromB.length ≤ r.fromB.length := hrmax q ((hmem q).mpr hqm) hqp
      have h₂ : r.fromB.length ≤ q.fromB.length := hqmax r ((hmem r).mp hrm) hrp
      have hfb : r.fromB = q.fromB := by
        have hr' := List.prefix_iff_eq_take.mp hrp
        have hq' := List.prefix_iff_eq_take.mp hqp
        rw [hr', hq', le_antisymm h₂ h₁]
      rw [eq_of_mem_of_fromB_eq hpw ((hmem r).mp hrm) hqm hfb]

/-! ### Drain and reference-transform equations -/

theorem firstMatch_mem {rules : List RewriteRule} {b : List Nat} {r : RewriteRule}
    (h : firstMatch rules b = some r) : r ∈ rules ∧ r.fromB <+: b := by
  unfold firstMatch at h
  have hp := List.find?_some h
  exact ⟨List.mem_of_find?_eq_some h, List.isPrefixOf_iff_prefix.mp hp⟩

theorem drainGo_nil (rules : List RewriteRule) (force : Bool) (fuel : Nat) :
    drainGo rules force fuel [] = ([], []) := by
  cases fuel <;> rfl

theorem drainGo_fuel_irrel {rules : List RewriteRule} {force : Bool}
    (hne : ∀ r ∈ rules, r.fromB ≠ []) :
    ∀ (fuel₁ : Nat) (buf : List Nat) (fuel₂ : Nat),
      buf.length ≤ fuel₁ → buf.length ≤ fuel₂ →
      drainGo rules force fuel₁ buf = drainGo rules force fuel₂ buf := by
  intro fuel₁
  induction fuel₁ with
  | zero =>
    intro buf fuel₂ h₁ _
    have : buf = [] := List.eq_nil_of_length_eq_zero (Nat.le_zero.mp h₁)
    subst this
    rw [drainGo_nil, drainGo_nil]
  | succ f ih =>
    intro buf fuel₂ h₁ h₂
    cases buf with
    | nil => rw [drainGo_nil, drainGo_nil]
    | cons hd tl =>
      cases fuel₂ with
      | zero => simp at h₂
      | succ f₂ =>
        simp only [drainGo]
        by_cases hdef : (!force && mightMatchLongerRule rules (hd :: tl)) = true
        · rw [if_pos hdef, if_pos hdef]
        · rw [if_neg hdef, if_neg hdef]
          cases hm : firstMatch rules (hd :: tl) with
          | some r =>
            obtain ⟨hrm, -⟩ := firstMatch_mem hm
            have hk : 1 ≤ r.fromB.length := List.length_pos.mpr (hne r hrm)
            simp only [List.length_cons] at h₁ h₂
            simp only []
            rw [ih ((hd :: tl).drop r.fromB.length) f₂
              (by simp only [List.length_drop, List.length_cons]; omega)
              (by simp only [List.length_drop, List.length_cons]; omega)]
          | none =>
            simp only [List.length_cons] at h₁ h₂
            simp only []
            rw [ih tl f₂ (by omega) (by omega)]

theorem drain_cons {rules : List RewriteRule} {force : Bool}
    (hne : ∀ r ∈ rules, r.fromB ≠ []) (hd : Nat) (tl : List Nat) :
    drain rules force (hd :: tl) =
      if !force && mightMatchLongerRule rules (hd :: tl) then ([], hd :: tl)
      else
        match firstMatch rules (hd :: tl) with
        | some r =>
          let p := drain rules force ((hd :: tl).drop r.fromB.length)
          (r.toB ++ p.1, p.2)
        | none =>
          let p := drain rules force tl
          (hd :: p.1, p.2) := by
  show drainGo rules force ((hd :: tl).length) (hd :: tl) = _
  simp only [List.length_cons, drainGo]
  by_cases hdef : (!force && mightMatchLongerRule rules (hd :: tl)) = true
  · rw [if_pos hdef, if_pos hdef]
  · rw [if_neg hdef, if_neg hdef]
    cases hm : firstMatch rules (hd :: tl) with
    | some r =>
      obtain ⟨hrm, -⟩ := firstMatch_mem hm
      have hk : 1 ≤ r.fromB.length := List.length_pos.mpr (hne r hrm)
      simp only []
      rw [drainGo_fuel_irrel hne tl.length ((hd :: tl).drop r.fromB.length)
        ((hd :: tl).drop r.fromB.length).length
        (by simp only [List.length_drop, List.length_cons]; omega) (le_refl _)]
      rfl
    | none => rfl

theorem naiveRewriteGo_nil (rules : List RewriteRule) (fuel : Nat) :
    naiveRewriteGo rules fuel [] = [] := by
  cases fuel <;> rfl

theorem naiveRewriteGo_fuel_irrel {rules : List RewriteRule}
    (hne : ∀ r ∈ rules, r.fromB ≠ []) :
    ∀ (fuel₁ : Nat) (input : List Nat) (fuel₂ : Nat),
      input.length ≤ fuel₁ → input.length ≤ fuel₂ →
      naiveRewriteGo rules fuel₁ input = naiveRewriteGo rules fuel₂ input := by
  intro fuel₁
  induction fuel₁ with
  | zero =>
    intro input fuel₂ h₁ _
    have : input = [] := List.eq_nil_of_length_eq_zero (Nat.le_zero.mp h₁)
    subst this
    rw [naiveRewriteGo_nil, naiveRewriteGo_nil]
  | succ f ih =>
    intro input fuel₂ h₁ h₂
    cases input with
    | nil => rw [naiveRewriteGo_nil, naiveRewriteGo_nil]
    | cons hd tl =>
      cases fuel₂ with
      | zero => simp at h₂
      | succ f₂ =>
        simp only [naiveRewriteGo]
        cases hm : pickLongestRule rules (hd :: tl) with
        | some r =>
          obtain ⟨hrm, -, -⟩ := pickLongestRule_some hm
          have hk : 1 ≤ r.fromB.length := List.length_pos.mpr (hne r hrm)
          simp only [List.length_cons] at h₁ h₂
          simp only []
          rw [ih ((hd :: tl).drop r.fromB.length) f₂
            (by simp only [List.length_drop, List.length_cons]; omega)
            (by simp only [List.length_drop, List.length_cons]; omega)]
        | none =>
          simp only [List.length_cons] at h₁ h₂
          simp only []
          rw [ih tl f₂ (by omega) (by omega)]

theorem naiveRewrite_cons {rules : List RewriteRule}
    (hne : ∀ r ∈ rules, r.fromB ≠ []) (hd : Nat) (tl : List Nat) :
    naiveRewrite rules (hd :: tl) =
      match pickLongestRule rules (hd :: tl) with
      | some r => r.toB ++ naiveRewrite rules ((hd :: tl).drop r.fromB.length)
      | none => hd :: naiveRewrite rules tl := by
  show naiveRewriteGo rules ((hd :: tl).length) (hd :: tl) = _
  simp only [List.length_cons, naiveRewriteGo]
  cases hm : pickLongestRule rules (hd :: tl) with
  | some r =>
    obtain ⟨hrm, -, -⟩ := pickLongestRule_some hm
    have hk : 1 ≤ r.fromB.length := List.length_pos.mpr (hne r hrm)
    simp only []
    rw [naiveRewriteGo_fuel_irrel hne tl.length ((hd :: tl).drop r.fromB.length)
      ((hd :: tl).drop r.fromB.length).length
      (by simp only [List.length_drop, List.length_cons]; omega) (le_refl _)]
    rfl
  | none => rfl

/-! ### Prefix-extension lemmas -/

theorem prefix_append_iff_of_le {l b t : List Nat} (h : l.length ≤ b.length) :
    l <+: b ++ t ↔ l <+: b := by
  constructor
  · intro hp
    have heq := List.prefix_iff_eq_take.mp hp
    rw [List.take_append_of_le_length h] at heq
    exact List.prefix_iff_eq_take.mpr heq
  · intro hp
    exact hp.trans (List.prefix_append b t)

theorem prefix_of_append_prefix {l b t : List Nat} (hlen : b.length < l.length)
    (h : l <+: b ++ t) : b <+: l := by
  rw [List.prefix_iff_eq_take] at h ⊢
  rw [h, List.take_take, Nat.min_eq_left (le_of_lt hlen), List.take_left]

theorem pickLongestRule_congr {b₁ b₂ : List Nat} :
    ∀ {rules : List RewriteRule},
      (∀ r ∈ rules, (r.fromB <+: b₁ ↔ r.fromB <+: b₂)) →
      pickLongestRule rules b₁ = pickLongestRule rules b₂ := by
  intro rules
  induction rules with
  | nil => intro _; rfl
  | cons a as ih =>
    intro h
    have hb : a.fromB.isPrefixOf b₁ = a.fromB.isPrefixOf b₂ := by
      rw [Bool.eq_iff_iff]
      simp only [ List.isPrefixOf_iff_prefix]
      exact h a (List.mem_cons_self a as)
    simp only [pickLongestRule]
    rw [ih fun r hr => h r (List.mem_cons_of_mem a hr)]
    simp only [hb]

/-! ### Deferral correctness -/

theorem drain_nil (rules : List RewriteRule) (force : Bool) :
    drain rules force [] = ([], []) := rfl

theorem mem_new_iff {rules : List RewriteRule}
    (hpw : rules.Pairwise (fun a b => a.fromB ≠ b.fromB)) (x : RewriteRule) :
    x ∈ InputRewriter.new rules ↔ x ∈ rules := by
  rw [InputRewriter.new, dedupRules_eq_self rules [] (by simp) hpw]
  exact mem_sortRulesByLenDesc

theorem no_longer_match_of_not_might {rules : List RewriteRule} {buf : List Nat}
    (h : mightMatchLongerRule rules buf = false) :
    ∀ r ∈ rules, ¬(buf.length < r.fromB.length ∧ buf <+: r.fromB) := by
  intro r hr hcontra
  rw [mightMatchLongerRule] at h
  have h' := List.any_eq_false.mp h r hr
  simp only [Bool.and_eq_true, decide_eq_true_eq, not_and, Bool.not_eq_true] at h'
  have hb := List.isPrefixOf_iff_prefix.mpr hcontra.2
  rw [h' hcontra.1] at hb
  simp at hb

theorem match_iff_of_no_longer {rules : List RewriteRule} {buf : List Nat}
    (hno : ∀ r ∈ rules, ¬(buf.length < r.fromB.length ∧ buf <+: r.fromB)) (t : List Nat) :
    ∀ r ∈ rules, (r.fromB <+: buf ++ t ↔ r.fromB <+: buf) := by
  intro r hr
  by_cases hlen : r.fromB.length ≤ buf.length
  · exact prefix_append_iff_of_le hlen
  · push_neg at hlen
    constructor
    · intro hp
      exact absurd ⟨hlen, prefix_of_append_prefix hlen hp⟩ (hno r hr)
    · intro hp
      exact absurd hp.length_le (by omega)

theorem drain_nonforce_spec {rules : List RewriteRule}
    (hpw : rules.Pairwise (fun a b => a.fromB ≠ b.fromB))
    (hne : ∀ r ∈ rules, r.fromB ≠ []) :
    ∀ (buf t : List Nat),
      naiveRewrite rules (buf ++ t)
        = (drain (InputRewriter.new rules) false buf).1
          ++ naiveRewrite rules ((drain (InputRewriter.new rules) false buf).2 ++ t) := by
  have hneSR : ∀ r ∈ InputRewriter.new rules, r.fromB ≠ [] :=
    fun r hr => hne r ((mem_new_iff hpw r).mp hr)
  suffices H : ∀ (n : Nat) (buf : List Nat), buf.length ≤ n → ∀ t : List Nat,
      naiveRewrite rules (buf ++ t)
        = (drain (InputRewriter.new rules) false buf).1
          ++ naiveRewrite rules ((drain (InputRewriter.new rules) false buf).2 ++ t) by
    exact fun buf t => H buf.length buf (le_refl _) t
  intro n
  induction n with
  | zero =>
    intro buf hle t
    have : buf = [] := List.eq_nil_of_length_eq_zero (Nat.le_zero.mp hle)
    subst this
    rw [drain_nil]
    simp
  | succ n ih =>
    intro buf hle t
    cases buf with
    | nil =>
      rw [drain_nil]
      simp
    | cons hd tl =>
      rw [drain_cons hneSR hd tl]
      by_cases hdef :
          (!false && mightMatchLongerRule (InputRewriter.new rules) (hd :: tl)) = true
      · rw [if_pos hdef]
        simp
      · rw [if_neg hdef]
        have hnotmight : mightMatchLongerRule (InputRewriter.new rules) (hd :: tl) = false := by
          revert hdef
          cases mightMatchLongerRule (InputRewriter.new rules) (hd :: tl) <;> simp
        have hnolR : ∀ r ∈ rules,
            ¬((hd :: tl).length < r.fromB.length ∧ (hd :: tl) <+: r.fromB) :=
          fun r hr =>
            no_longer_match_of_not_might hnotmight r ((mem_new_iff hpw r).mpr hr)
        have hcongr : pickLongestRule rules ((hd :: tl) ++ t) = pickLongestRule rules (hd :: tl) :=
          pickLongestRule_congr (match_iff_of_no_longer hnolR t)
        cases hm : firstMatch (InputRewriter.new rules) (hd :: tl) with
        | some r =>
          have hpick : pickLongestRule rules (hd :: tl) = some r := by
            rw [← firstMatch_new_eq_pickLongest hpw (hd :: tl)]
            exact hm
          have hstep : naiveRewrite rules ((hd :: tl) ++ t)
              = r.toB ++ naiveRewrite rules (((hd :: tl) ++ t).drop r.fromB.length) := by
            rw [show (hd :: tl) ++ t = hd :: (tl ++ t) from rfl,
              naiveRewrite_cons hne hd (tl ++ t),
              show hd :: (tl ++ t) = (hd :: tl) ++ t from rfl, hcongr, hpick]
          obtain ⟨hrm, hrp⟩ := firstMatch_mem hm
          have hrlen : r.fromB.length ≤ (hd :: tl).length := hrp.length_le
          have hk : 1 ≤ r.fromB.length :=
            List.length_pos.mpr (hne r ((mem_new_iff hpw r).mp hrm))
          have hdropapp : ((hd :: tl) ++ t).drop r.fromB.length
              = ((hd :: tl).drop r.fromB.length) ++ t :=
            List.drop_append_of_le_length hrlen
          rw [hstep, hdropapp,
            ih ((hd :: tl).drop r.fromB.length)
              (by simp only [List.length_drop, List.length_cons] at *; omega) t]
          simp only []
          rw [List.append_assoc]
        | none =>
          have hpick : pickLongestRule rules (hd :: tl) = none := by
            rw [← firstMatch_new_eq_pickLongest hpw (hd :: tl)]
            exact hm
          have hstep : naiveRewrite rules ((hd :: tl) ++ t)
              = hd :: naiveRewrite rules (tl ++ t) := by
            rw [show (hd :: tl) ++ t = hd :: (tl ++ t) from rfl,
              naiveRewrite_cons hne hd (tl ++ t),
              show hd :: (tl ++ t) = (hd :: tl) ++ t from rfl, hcongr, hpick]
          rw [hstep,
            ih tl (by simp only [List.length_cons] at hle; omega) t]
          simp only []
          rfl

theorem drain_force_eq_naive {rules : List RewriteRule}
    (hpw : rules.Pairwise (fun a b => a.fromB ≠ b.fromB))
    (hne : ∀ r ∈ rules, r.fromB ≠ []) :
    ∀ buf : List Nat,
      drain (InputRewriter.new rules) true buf = (naiveRewrite rules buf, []) := by
  have hneSR : ∀ r ∈ InputRewriter.new rules, r.fromB ≠ [] :=
    fun r hr => hne r ((mem_new_iff hpw r).mp hr)
  suffices H : ∀ (n : Nat) (buf : List Nat), buf.length ≤ n →
      drain (InputRewriter.new rules) true buf = (naiveRewrite rules buf, []) by
    exact fun buf => H buf.length buf (le_refl _)
  intro n
  induction n with
  | zero =>
    intro buf hle
    have : buf = [] := List.eq_nil_of_length_eq_zero (Nat.le_zero.mp hle)
    subst this
    rw [drain_nil]
    rfl
  | succ n ih =>
    intro buf hle
    cases buf with
    | nil => rw [drain_nil]; rfl
    | cons hd tl =>
      rw [drain_cons hneSR hd tl]
      rw [if_neg (by simp)]
      cases hm : firstMatch (InputRewriter.new rules) (hd :: tl) with
      | some r =>
        have hpick : pickLongestRule rules (hd :: tl) = some r := by
          rw [← firstMatch_new_eq_pickLongest hpw (hd :: tl)]
          exact hm
        obtain ⟨hrm, hrp⟩ := firstMatch_mem hm
        have hk : 1 ≤ r.fromB.length :=
          List.length_pos.mpr (hne r ((mem_new_iff hpw r).mp hrm))
        rw [naiveRewrite_cons hne hd tl, hpick]
        simp only []
        rw [ih ((hd :: tl).drop r.fromB.length)
          (by simp only [List.length_drop, List.length_cons] at *; omega)]
      | none =>
        have hpick : pickLongestRule rules (hd :: tl) = none := by
          rw [← firstMatch_new_eq_pickLongest hpw (hd :: tl)]
          exact hm
        rw [naiveRewrite_cons hne hd tl, hpick]
        simp only []
        rw [ih tl (by simp only [List.length_cons] at hle; omega)]

theorem runChunks_eq_naive {rules : List RewriteRule}
    (hpw : rules.Pairwise (fun a b => a.fromB ≠ b.fromB))
    (hne : ∀ r ∈ rules, r.fromB ≠ []) :
    ∀ (chunks : List (List Nat)) (buf : List Nat),
      (runChunks (InputRewriter.new rules) chunks buf).1
        = naiveRewrite rules (buf ++ chunks.flatten) := by
  intro chunks
  induction chunks with
  | nil =>
    intro buf
    show (drain (InputRewriter.new rules) true buf).1 = _
    rw [drain_force_eq_naive hpw hne buf]
    simp
  | cons c cs ih =>
    intro buf
    show (drain (InputRewriter.new rules) false (buf ++ c)).1
        ++ (runChunks (InputRewriter.new rules) cs
              (drain (InputRewriter.new rules) false (buf ++ c)).2).1 = _
    rw [ih ((drain (InputRewriter.new rules) false (buf ++ c)).2)]
    rw [← drain_nonforce_spec hpw hne (buf ++ c) cs.flatten]
    rw [List.flatten_cons, ← List.append_assoc]

/-! ### Claim C1 -/

/-- C1: chunk-boundary invariance of the input rewriter.  For every
deduplicated rule set with non-empty `from` patterns and every way of
splitting the input into chunks — each appended via `push` and processed by
`drain` with `force = false`, with one final `drain` with `force = true` at
end-of-stream — the concatenated output equals the single-pass reference
transform that at each position applies the longest matching rule's `to`
(first-listed rule winning ties) or passes one byte through. -/
theorem input_rewriter_chunk_invariance (rules : List RewriteRule) (chunks : List (List Nat))
    (hdedup : rules.Pairwise (fun a b => a.fromB ≠ b.fromB))
    (hne : ∀ r ∈ rules, r.fromB ≠ []) :
    (runChunks (InputRewriter.new rules) chunks []).1 = naiveRewrite rules chunks.flatten := by
  rw [runChunks_eq_naive hdedup hne chunks []]
  rfl

/-- Witness for `input_rewriter_chunk_invariance`: rules 0,1↦7 and 0↦9 fed
the input 0,1,0 split as chunks 0 and 1,0 (the split falls inside the
longer match). -/
theorem input_rewriter_chunk_invariance_witness :
    (([⟨[0, 1], [7]⟩, ⟨[0], [9]⟩] : List RewriteRule).Pairwise
        (fun a b => a.fromB ≠ b.fromB) ∧
      ∀ r ∈ ([⟨[0, 1], [7]⟩, ⟨[0], [9]⟩] : List RewriteRule), r.fromB ≠ []) ∧
    (runChunks (InputRewriter.new [⟨[0, 1], [7]⟩, ⟨[0], [9]⟩]) [[0], [1, 0]] []).1
      = naiveRewrite [⟨[0, 1], [7]⟩, ⟨[0], [9]⟩] ([[0], [1, 0]] : List (List Nat)).flatten :=
  ⟨⟨by decide, by decide⟩,
    input_rewriter_chunk_invariance [⟨[0, 1], [7]⟩, ⟨[0], [9]⟩] [[0], [1, 0]]
      (by decide) (by decide)⟩

/-! ## tty_text/reformat/line_wrapping.rs -/

/-- `MAX_CONTINUATION_INDENT`. -/
def MAX_CONTINUATION_INDENT : Nat := 2

/-- `WRAP_EDGE_SLACK`. -/
def WRAP_EDGE_SLACK : Nat := 4

/-- `u8::is_ascii_digit`. -/
def isAsciiDigit (b : Nat) : Bool := 0x30 ≤ b ∧ b ≤ 0x39

/-- `u8::is_ascii_graphic`. -/
def isAsciiGraphic (b : Nat) : Bool := 0x21 ≤ b ∧ b ≤ 0x7E

/-- `u8::is_ascii_alphabetic`. -/
def isAsciiAlphabetic (b : Nat) : Bool :=
  (0x41 ≤ b ∧ b ≤ 0x5A) ∨ (0x61 ≤ b ∧ b ≤ 0x7A)

/-- `Fragment::is_cud` (src/tty_text/fragment.rs): `CSI Ps B`. -/
def Fragment.is_cud (f : Fragment) : Bool :=
  3 ≤ f.data.length ∧ f.data.take 2 = [0x1B, 0x5B] ∧
    ((f.data.drop 2).dropLast.all isAsciiDigit : Bool) ∧ f.data.getLast? = some 0x42

/-- `Fragment::is_cuf` (src/tty_text/fragment.rs): `CSI Ps C`. -/
def Fragment.is_cuf (f : Fragment) : Bool :=
  3 ≤ f.data.length ∧ f.data.take 2 = [0x1B, 0x5B] ∧
    ((f.data.drop 2).dropLast.all isAsciiDigit : Bool) ∧ f.data.getLast? = some 0x43

/-- Remove every trailing CR byte, as `while strip_suffix(b"\r")` does. -/
def dropTrailingCRs (d : List Nat) : List Nat :=
  (d.reverse.dropWhile fun b => decide (b = 0x0D)).reverse

/-- `Fragment::chomp` (src/tty_text/fragment.rs): strip one trailing newline,
then every trailing carriage return. -/
def Fragment.chomp (f : Fragment) : Fragment :=
  ⟨dropTrailingCRs (if f.data.getLast? = some 0x0A then f.data.dropLast else f.data),
    f.escape_sequence⟩

/-- `Fragment::ltrim` (src/tty_text/fragment.rs): drop leading spaces. -/
def Fragment.ltrim (f : Fragment) : Fragment :=
  ⟨f.data.dropWhile fun b => decide (b = 0x20), f.escape_sequence⟩

/-- `windows(3).position`: index of the first adjacent triple `a, b, c`. -/
def findWindow3? (a b c : Nat) : List Nat → Option Nat
  | x :: y :: z :: rest =>
    if x = a ∧ y = b ∧ z = c then some 0
    else (findWindow3? a b c (y :: z :: rest)).map (· + 1)
  | _ => none

/-- `windows(3).rposition`: index of the last adjacent triple `a, b, c`. -/
def rfindWindow3? (a b c : Nat) : List Nat → Option Nat
  | x :: y :: z :: rest =>
    (match rfindWindow3? a b c (y :: z :: rest) with
     | some i => some (i + 1)
     | none => if x = a ∧ y = b ∧ z = c then some 0 else none)
  | _ => none

/-- `str::parse::<usize>` on raw bytes combined with the preceding
`from_utf8` check: an optional leading `+` sign followed by at least one
ASCII digit, value below `2^64`.  Non-digit bytes make either the UTF-8
decode or the integer parse fail, which the caller treats alike. -/
def parseUsize? (bytes : List Nat) : Option Nat :=
  let ds := match bytes with
    | 0x2B :: rest => rest
    | _ => bytes
  if ds ≠ [] ∧ (ds.all isAsciiDigit : Bool) then
    let v := ds.foldl (fun acc b => acc * 10 + (b - 0x30)) 0
    if v < 2 ^ 64 then some v else none
  else none

/-- `cursor_forward_columns` (src/tty_text/reformat/line_wrapping.rs):
strip `ESC [` and the final `C`; an empty or zero parameter counts 1. -/
def cursor_forward_columns (data : List Nat) : Option Nat :=
  if data.take 2 = [0x1B, 0x5B] then
    let d₁ := data.drop 2
    if d₁.getLast? = some 0x43 then
      let mid := d₁.dropLast
      if mid = [] then some 1
      else
        match parseUsize? mid with
        | some v => some (if v = 0 then 1 else v)
        | none => none
    else none
  else none

/-- `line_width`: the one boundary with the external `unicode_width`
dependency, which is not part of this repository.  On all-ASCII lines the
model is exact: printable bytes 0x20..=0x7E count one column and control
bytes count zero, matching `UnicodeWidthStr::width`, and every line in this
development's concrete claims is all-ASCII.  Any other line falls back to
its byte length, which matches the code's `unwrap_or` fallback on invalid
UTF-8 but approximates the crate's table-driven display width for valid
multibyte text. -/
def line_width (line : List Nat) : Nat :=
  if line.all fun b => decide (b ≤ 0x7F) then
    (line.map fun b => if 0x20 ≤ b ∧ b ≤ 0x7E then 1 else 0).sum
  else line.length

/-- `is_ascii_graphic_run`. -/
def is_ascii_graphic_run (data : List Nat) : Bool := data.all isAsciiGraphic

/-- `is_scheme_char`: RFC 3986 scheme characters. -/
def is_scheme_char (b : Nat) : Bool :=
  isAsciiAlphabetic b ∨ isAsciiDigit b ∨ b = 0x2B ∨ b = 0x2D ∨ b = 0x2E

/-- `should_attempt_url_unwrap` (src/tty_text/reformat/line_wrapping.rs):
the rightmost `://` exists, everything after it is printable ASCII, and the
width up to `://` plus the tail's length reaches within `WRAP_EDGE_SLACK`
columns of the terminal width. -/
def should_attempt_url_unwrap (line : List Nat) (terminal_width : Nat) : Bool :=
  match rfindWindow3? 0x3A 0x2F 0x2F line with
  | none => false
  | some p =>
    let i := p + 3
    if (line.drop i).any fun b => !isAsciiGraphic b then false
    else terminal_width - WRAP_EDGE_SLACK ≤ line_width (line.take i) + (line.drop i).length

/-- `continuation_indent`: 1 to `MAX_CONTINUATION_INDENT` leading spaces,
strictly inside the line. -/
def continuation_indent (line : List Nat) : Option Nat :=
  let n := (line.takeWhile fun b => decide (b = 0x20)).length
  if 1 ≤ n ∧ n ≤ MAX_CONTINUATION_INDENT ∧ n < line.length then some n else none

/-- `starts_with_url_scheme`. -/
def starts_with_url_scheme (line : List Nat) : Bool :=
  match line.findIdx? fun b => !is_scheme_char b with
  | some i => isAsciiAlphabetic line.headI && (line.drop i).take 3 = [0x3A, 0x2F, 0x2F]
  | none => false

/-- `url_continuation_indent` (src/tty_text/reformat/line_wrapping.rs):
indent of a joinable continuation line, `none` for list items, new URL
schemes, or non-printable starts. -/
def url_continuation_indent (line : List Nat) : Option Nat :=
  match continuation_indent line with
  | none => none
  | some margin =>
    let ordered : Bool :=
      match (line.drop margin).findIdx? fun b => !isAsciiDigit b with
      | some i =>
        decide (0 < i) && decide (line.get? (margin + i) = some 0x2E) &&
          ((line.get? (margin + i + 1)).all fun b => decide (b = 0x20))
      | none => false
    if ordered then none
    else if line.get? margin = some 0x2D ∧
        ((line.get? (margin + 1)).all fun b => decide (b = 0x20) : Bool) then none
    else if starts_with_url_scheme (line.drop margin) then none
    else if isAsciiGraphic (line.getD margin 0) then some margin
    else none

/-- `can_have_another_url_continuation`. -/
def can_have_another_url_continuation (line : List Nat) (terminal_width : Nat) : Bool :=
  match continuation_indent line with
  | none => false
  | some margin =>
    terminal_width - WRAP_EDGE_SLACK ≤ line.length ∧
      (is_ascii_graphic_run (line.drop margin) : Bool)

/-- `has_split_url_scheme` (src/tty_text/reformat/line_wrapping.rs): detects
a URL scheme split across a forced wrap, either inside the scheme letters or
exactly at the colon. -/
def has_split_url_scheme (prev_line current_line : List Nat) : Bool :=
  match continuation_indent current_line with
  | none => false
  | some margin =>
    let after := current_line.drop margin
    let intra :=
      match findWindow3? 0x3A 0x2F 0x2F after with
      | some colonPos =>
        ((after.take colonPos).all is_scheme_char : Bool) &&
          (let prefixLen := (prev_line.reverse.takeWhile is_scheme_char).length
           0 < prefixLen ∧
             (isAsciiAlphabetic (prev_line.getD (prev_line.length - prefixLen) 0) : Bool))
      | none => false
    let colonBoundary :=
      after.take 2 = [0x2F, 0x2F] ∧ prev_line.getLast? = some 0x3A ∧
        (let before := prev_line.dropLast
         let schemeLen := (before.reverse.takeWhile is_scheme_char).length
         (0 < schemeLen ∧
            (isAsciiAlphabetic (before.getD (before.length - schemeLen) 0) : Bool) : Bool))
    intra || colonBoundary

/-- `visual_line_break_length` (src/tty_text/reformat/line_wrapping.rs):
number of fragments of a `\r CUF? CUD` visual break at the front, if any.
Every lookup is `is_some_and` — a missing fragment fails the check
(`Option.any` is false on `none`). -/
def visual_line_break_length (frags : List Fragment) : Option Nat :=
  if (frags.head?.any fun f => decide (f.data.getLast? = some 0x0D)) then
    let i := if (frags.get? 1).any Fragment.is_cuf then 2 else 1
    if (frags.get? i).any Fragment.is_cud then some (i + 1) else none
  else none

/-- `FragmentCursor` (src/tty_text/reformat/line_wrapping.rs): fragments
with their original cumulative end offsets, a position, the start of the
current line, and the terminal width. -/
structure FragmentCursor where
  fragments : List Fragment
  end_offsets : List Nat
  position : Nat
  line_start : Nat
  terminal_width : Nat
deriving DecidableEq

/-- The cumulative-size scan of `FragmentCursor::new`. -/
def prefixSizeSums : List Fragment → Nat → List Nat
  | [], _ => []
  | f :: fs, acc => (acc + f.size) :: prefixSizeSums fs (acc + f.size)

/-- `FragmentCursor::new`. -/
def FragmentCursor.new (fragments : List Fragment) (terminal_width : Nat) : FragmentCursor :=
  ⟨fragments, prefixSizeSums fragments 0, 0, 0, terminal_width⟩

/-- `FragmentCursor::set_position`. -/
def FragmentCursor.setPosition (c : FragmentCursor) (pos : Nat) : FragmentCursor :=
  { c with position := pos }

/-- `FragmentCursor::rewind`: back to the start of the current line. -/
def FragmentCursor.rewind (c : FragmentCursor) : FragmentCursor :=
  { c with position := c.line_start }

/-- `FragmentCursor::remove_at`: drop the fragment and its end offset,
stepping the position back. -/
def FragmentCursor.removeAt (c : FragmentCursor) (i : Nat) : FragmentCursor :=
  { c with
    fragments := c.fragments.eraseIdx i
    end_offsets := c.end_offsets.eraseIdx i
    position := c.position - 1 }

/-- `FragmentCursor::remove_while` specialised to `is_cuf`, fuelled by the
fragment count. -/
def removeCufsGo : Nat → FragmentCursor → Nat → FragmentCursor
  | 0, c, _ => c
  | fuel + 1, c, i =>
    match c.fragments.get? i with
    | some f => if f.is_cuf then removeCufsGo fuel (c.removeAt i) i else c
    | none => c

/-- `FragmentCursor::truncate`: keep the consumed prefix and report the
original byte count it covers (`end_offsets[position - 1]`, or 0 for
position 0 via the `wrapping_sub` out-of-range lookup). -/
def FragmentCursor.truncate (c : FragmentCursor) : Nat × List Fragment :=
  (if c.position = 0 then 0 else c.end_offsets.getD (c.position - 1) 0,
    c.fragments.take c.position)

/-- The scan loop of `FragmentCursor::extract_line`: advance `i` until a
fragment holds a newline, starts a visual line break, or carries a
line-terminating escape tag.  Returns the index just past the boundary and
whether one was found. -/
def extractScanGo (frs : List Fragment) : Nat → Nat → Nat × Bool
  | 0, i => (i, false)
  | fuel + 1, i =>
    match frs.get? i with
    | none => (i, false)
    | some fragment =>
      match fragment.escape_sequence with
      | none =>
        if fragment.data.contains 0x0A
            || (visual_line_break_length (frs.drop i)).isSome then
          (i + 1, true)
        else extractScanGo frs fuel (i + 1)
      | some (.EndSynchronizedUpdate) => (i + 1, true)
      | some (.ShowCursor) => (i + 1, true)
      | some (.SetWindowAndIconTitle _) => (i + 1, true)
      | some (.PostNotification _) => (i + 1, true)
      | some (.Incomplete) => extractScanGo frs fuel (i + 1)
      | some (.Other) => extractScanGo frs fuel (i + 1)

/-- The flattening step of `extract_line`: plain text verbatim, CUF escapes
expanded to spaces capped at the terminal width, other escapes dropped. -/
def flattenLine (frs : List Fragment) (terminal_width : Nat) : List Nat :=
  (frs.map fun f =>
    if f.is_plain_text then f.data
    else
      match cursor_forward_columns f.data with
      | some n => List.replicate (min n terminal_width) 0x20
      | none => []).flatten

/-- `FragmentCursor::extract_line` (src/tty_text/reformat/line_wrapping.rs):
find the current line's boundary, advance the cursor past it, and return the
flattened text with one trailing newline and all trailing carriage returns
removed; `none` when no boundary exists yet. -/
def FragmentCursor.extract_line (c : FragmentCursor) : Option (FragmentCursor × List Nat) :=
  let start := c.position
  let scanned := extractScanGo c.fragments (c.fragments.length + 1) c.position
  if scanned.2 then
    let c' := { c with line_start := start, position := scanned.1 }
    let line := flattenLine ((c.fragments.drop start).take (scanned.1 - start)) c.terminal_width
    let line := if line.getLast? = some 0x0A then line.dropLast else line
    some (c', dropTrailingCRs line)
  else none

/-- Iterated `remove_at` at a fixed index (the `for _ in 1..visual_break`
loop of `join`). -/
def removeAtTimes : FragmentCursor → Nat → Nat → FragmentCursor
  | c, _, 0 => c
  | c, i, k + 1 => removeAtTimes (c.removeAt i) i k

/-- The trailing loop of `join`: left-trim the first plain-text fragment
between `i` and the cursor position. -/
def ltrimFirstPlainGo : Nat → FragmentCursor → Nat → FragmentCursor
  | 0, c, _ => c
  | fuel + 1, c, i =>
    if i < c.position then
      match c.fragments.get? i with
      | some f =>
        if f.is_plain_text then { c with fragments := c.fragments.set i f.ltrim }
        else ltrimFirstPlainGo fuel c (i + 1)
      | none => c
    else c

/-- `FragmentCursor::join` (src/tty_text/reformat/line_wrapping.rs): remove
the line boundary `(\n | \r CUF? CUD) CUF*` before the continuation and
left-trim the continuation's first plain-text fragment. -/
def FragmentCursor.join (c : FragmentCursor) : FragmentCursor :=
  let vbl := visual_line_break_length (c.fragments.drop (c.line_start - 1))
  let prevIdx := c.line_start - 1
  let chomped := { c with
    fragments := c.fragments.set prevIdx ((c.fragments.getD prevIdx ⟨[], none⟩).chomp) }
  let afterBreaks := removeAtTimes chomped c.line_start (vbl.getD 0 - 1)
  let afterCufs := removeCufsGo (afterBreaks.fragments.length + 1) afterBreaks c.line_start
  ltrimFirstPlainGo (afterCufs.fragments.length + 1) afterCufs c.line_start

/-- The inner continuation-joining loop of `adjust_line_wrapping`.  Returns
the cursor and whether the outer loop must stop (`break 'outer`, taken when
no further line boundary exists). -/
def adjustInnerGo (terminal_width : Nat) : Nat → FragmentCursor → Nat → Nat →
    FragmentCursor × Bool
  | 0, c, _, _ => (c, true)
  | fuel + 1, c, adjusted, previous_line_width =>
    match c.extract_line with
    | none => (c.setPosition adjusted, true)
    | some (c₁, line) =>
      match url_continuation_indent line with
      | none => (c₁.rewind, false)
      | some margin =>
        if !is_ascii_graphic_run (line.drop margin) ∧ previous_line_width < terminal_width then
          (c₁.rewind, false)
        else
          let c₂ := c₁.join
          if !can_have_another_url_continuation line terminal_width then (c₂.rewind, false)
          else adjustInnerGo terminal_width fuel c₂ adjusted (line_width line)

/-- The outer loop of `adjust_line_wrapping`, carrying the `prev` slot used
by the backward split-scheme join.  The fuel is generous; every concrete
run in this development terminates well within it, and every property
proved about the pass holds for the fuelled function itself. -/
def adjustOuterGo (terminal_width : Nat) : Nat → FragmentCursor →
    Option (Nat × List Nat) → FragmentCursor
  | 0, c, _ => c
  | fuel + 1, c, prev =>
    let adjusted := c.position
    match c.extract_line with
    | none => c
    | some (c₁, line) =>
      let step : FragmentCursor × List Nat × Nat :=
        match prev with
        | some pa =>
          if has_split_url_scheme pa.2 line then
            let cJ := (c₁.join).setPosition pa.1
            match cJ.extract_line with
            | some (c₃, l₃) => (c₃, l₃, pa.1)
            | none => (cJ, [], pa.1)
          else (c₁, line, adjusted)
        | none => (c₁, line, adjusted)
      let c₂ := step.1
      let line₂ := step.2.1
      let adjusted₂ := step.2.2
      if !should_attempt_url_unwrap line₂ terminal_width then
        adjustOuterGo terminal_width fuel c₂
          (if line_width line₂ = terminal_width then some (adjusted₂, line₂) else none)
      else
        let inner := adjustInnerGo terminal_width fuel c₂ adjusted₂ (line_width line₂)
        if inner.2 then inner.1 else adjustOuterGo terminal_width fuel inner.1 none

/-- The cursor state after the main loop of `adjust_line_wrapping`, before
the `allow_incomplete` fallback. -/
def adjustCursor (fragments : List Fragment) (terminal_width : Nat) : FragmentCursor :=
  adjustOuterGo terminal_width ((fragments.length + 1) * (fragments.length + 2))
    (FragmentCursor.new fragments terminal_width) none

/-- `adjust_line_wrapping` (src/tty_text/reformat/line_wrapping.rs): run the
reconstruction loop, apply the buffer-full fallback (`allow_incomplete`,
position 0, more than one fragment ⇒ release one fragment), and truncate.
Returns the consumed original byte count and the resulting fragments. -/
def adjust_line_wrapping (fragments : List Fragment) (allow_incomplete : Bool)
    (terminal_width : Nat) : Nat × List Fragment :=
  let c := adjustCursor fragments terminal_width
  let c :=
    if allow_incomplete ∧ c.position = 0 ∧ 1 < c.fragments.length then c.setPosition 1 else c
  c.truncate

/-! ### Cursor invariant: end offsets stay aligned and positive -/

/-- The offsets column stays as long as the fragments column and every
recorded offset is a positive original byte count. -/
def CursorInv (c : FragmentCursor) : Prop :=
  c.end_offsets.length = c.fragments.length ∧ ∀ x ∈ c.end_offsets, 0 < x

theorem prefixSizeSums_length : ∀ (frs : List Fragment) (acc : Nat),
    (prefixSizeSums frs acc).length = frs.length := by
  intro frs
  induction frs with
  | nil => intro acc; rfl
  | cons f fs ih =>
    intro acc
    simp [prefixSizeSums, ih]

theorem prefixSizeSums_pos : ∀ (frs : List Fragment) (acc : Nat),
    (∀ f ∈ frs, f.data ≠ []) → ∀ x ∈ prefixSizeSums frs acc, 0 < x := by
  intro frs
  induction frs with
  | nil => intro acc _ x hx; cases hx
  | cons f fs ih =>
    intro acc hdata x hx
    rcases List.mem_cons.mp hx with rfl | hx'
    · have : 0 < f.size := List.length_pos.mpr (hdata f (List.mem_cons_self f fs))
      omega
    · exact ih (acc + f.size) (fun g hg => hdata g (List.mem_cons_of_mem f hg)) x hx'

theorem cursorInv_new {frs : List Fragment} {tw : Nat}
    (hdata : ∀ f ∈ frs, f.data ≠ []) : CursorInv (FragmentCursor.new frs tw) :=
  ⟨prefixSizeSums_length frs 0, prefixSizeSums_pos frs 0 hdata⟩

theorem cursorInv_setPosition {c : FragmentCursor} {p : Nat} (h : CursorInv c) :
    CursorInv (c.setPosition p) := h

theorem cursorInv_rewind {c : FragmentCursor} (h : CursorInv c) : CursorInv c.rewind := h

theorem cursorInv_removeAt {c : FragmentCursor} {i : Nat} (h : CursorInv c) :
    CursorInv (c.removeAt i) := by
  obtain ⟨hlen, hpos⟩ := h
  constructor
  · show (c.end_offsets.eraseIdx i).length = (c.fragments.eraseIdx i).length
    by_cases hi : i < c.fragments.length
    · rw [List.length_eraseIdx_of_lt hi, List.length_eraseIdx_of_lt (by omega), hlen]
    · rw [List.eraseIdx_of_length_le (by omega), List.eraseIdx_of_length_le (by omega), hlen]
  · intro x hx
    exact hpos x ((List.eraseIdx_sublist c.end_offsets i).subset hx)

theorem cursorInv_removeAtTimes {i : Nat} :
    ∀ (k : Nat) {c : FragmentCursor}, CursorInv c → CursorInv (removeAtTimes c i k) := by
  intro k
  induction k with
  | zero => intro c h; exact h
  | succ k ih => intro c h; exact ih (cursorInv_removeAt h)

theorem cursorInv_removeCufsGo {i : Nat} :
    ∀ (fuel : Nat) {c : FragmentCursor}, CursorInv c → CursorInv (removeCufsGo fuel c i) := by
  intro fuel
  induction fuel with
  | zero => intro c h; exact h
  | succ fuel ih =>
    intro c h
    rw [removeCufsGo]
    cases c.fragments.get? i with
    | none => exact h
    | some f =>
      simp only []
      by_cases hc : f.is_cuf = true
      · rw [if_pos hc]
        exact ih (cursorInv_removeAt h)
      · rw [if_neg hc]
        exact h

theorem cursorInv_set_fragments {c : FragmentCursor} {i : Nat} {f : Fragment}
    (h : CursorInv c) : CursorInv { c with fragments := c.fragments.set i f } := by
  obtain ⟨hlen, hpos⟩ := h
  exact ⟨by simpa [List.length_set] using hlen, hpos⟩

theorem cursorInv_ltrimFirstPlainGo :
    ∀ (fuel : Nat) {c : FragmentCursor} (hi : Nat), CursorInv c →
      CursorInv (ltrimFirstPlainGo fuel c hi) := by
  intro fuel
  induction fuel with
  | zero => intro c hi h; exact h
  | succ fuel ih =>
    intro c hi h
    rw [ltrimFirstPlainGo]
    by_cases hlt : hi < c.position
    · rw [if_pos hlt]
      cases c.fragments.get? hi with
      | none => exact h
      | some f =>
        simp only []
        by_cases hp : f.is_plain_text = true
        · rw [if_pos hp]
          exact cursorInv_set_fragments h
        · rw [if_neg hp]
          exact ih (hi + 1) h
    · rw [if_neg hlt]
      exact h

theorem cursorInv_join {c : FragmentCursor} (h : CursorInv c) : CursorInv c.join := by
  unfold FragmentCursor.join
  exact cursorInv_ltrimFirstPlainGo _ _
    (cursorInv_removeCufsGo _ (cursorInv_removeAtTimes _ (cursorInv_set_fragments h)))

theorem cursorInv_extract_line {c c' : FragmentCursor} {l : List Nat}
    (hx : c.extract_line = some (c', l)) (h : CursorInv c) : CursorInv c' := by
  unfold FragmentCursor.extract_line at hx
  simp only [] at hx
  split at hx
  · cases hx
    exact h
  · cases hx

theorem cursorInv_adjustInnerGo {tw : Nat} :
    ∀ (fuel : Nat) {c : FragmentCursor} (adj pw : Nat), CursorInv c →
      CursorInv (adjustInnerGo tw fuel c adj pw).1 := by
  intro fuel
  induction fuel with
  | zero => intro c adj pw h; exact h
  | succ fuel ih =>
    intro c adj pw h
    rw [adjustInnerGo]
    cases hx : c.extract_line with
    | none => exact cursorInv_setPosition h
    | some p =>
      obtain ⟨c₁, line⟩ := p
      have h₁ := cursorInv_extract_line hx h
      simp only []
      cases url_continuation_indent line with
      | none => exact cursorInv_rewind h₁
      | some margin =>
        simp only []
        split
        · exact cursorInv_rewind h₁
        · split
          · exact cursorInv_rewind (cursorInv_join h₁)
          · exact ih adj (line_width line) (cursorInv_join h₁)

theorem cursorInv_adjustOuterGo {tw : Nat} :
    ∀ (fuel : Nat) {c : FragmentCursor} (prev : Option (Nat × List Nat)), CursorInv c →
      CursorInv (adjustOuterGo tw fuel c prev) := by
  intro fuel
  induction fuel with
  | zero => intro c prev h; exact h
  | succ fuel ih =>
    intro c prev h
    rw [adjustOuterGo]
    cases hx : c.extract_line with
    | none => exact h
    | some p =>
      obtain ⟨c₁, line⟩ := p
      have h₁ := cursorInv_extract_line hx h
      cases prev with
      | none =>
        simp only []
        split
        · exact ih _ h₁
        · split
          · exact cursorInv_adjustInnerGo fuel _ _ h₁
          · exact ih none (cursorInv_adjustInnerGo fuel _ _ h₁)
      | some pa =>
        simp only []
        by_cases hsp : has_split_url_scheme pa.2 line = true
        · rw [if_pos hsp]
          have hJ : CursorInv ((c₁.join).setPosition pa.1) :=
            cursorInv_setPosition (cursorInv_join h₁)
          cases hx₂ : ((c₁.join).setPosition pa.1).extract_line with
          | some q =>
            obtain ⟨c₃, l₃⟩ := q
            have h₃ := cursorInv_extract_line hx₂ hJ
            simp only []
            split
            · exact ih _ h₃
            · split
              · exact cursorInv_adjustInnerGo fuel _ _ h₃
              · exact ih none (cursorInv_adjustInnerGo fuel _ _ h₃)
          | none =>
            simp only []
            split
            · exact ih _ hJ
            · split
              · exact cursorInv_adjustInnerGo fuel _ _ hJ
              · exact ih none (cursorInv_adjustInnerGo fuel _ _ hJ)
        · rw [if_neg hsp]
          simp only []
          split
          · exact ih _ h₁
          · split
            · exact cursorInv_adjustInnerGo fuel _ _ h₁
            · exact ih none (cursorInv_adjustInnerGo fuel _ _ h₁)

theorem cursorInv_adjustCursor {frs : List Fragment} {tw : Nat}
    (hdata : ∀ f ∈ frs, f.data ≠ []) : CursorInv (adjustCursor frs tw) :=
  cursorInv_adjustOuterGo _ none (cursorInv_new hdata)

/-! ### Claim C3 -/

/-- The C3 example input: `...URL: https://example.c` `\r\n` `  om/long/path`
followed by a trailing blank line. -/
def urlRejoinInput : List Nat :=
  [46, 46, 46, 85, 82, 76, 58, 32,
   104, 116, 116, 112, 115, 58, 47, 47, 101, 120, 97, 109, 112, 108, 101, 46, 99,
   0x0D, 0x0A, 32, 32,
   111, 109, 47, 108, 111, 110, 103, 47, 112, 97, 116, 104, 0x0A, 0x0A]

/-- The unbroken token `https://example.com/long/path`. -/
def urlRejoinToken : List Nat :=
  [104, 116, 116, 112, 115, 58, 47, 47, 101, 120, 97, 109, 112, 108, 101, 46, 99,
   111, 109, 47, 108, 111, 110, 103, 47, 112, 97, 116, 104]

/-- C3: with terminal width 28, fragmenting the input
`...URL: https://example.c\r\n  om/long/path` plus a trailing blank line and
running `adjust_line_wrapping` yields fragments whose concatenated plain
text is `...URL: https://example.com/long/path\n\n`: it contains the
unbroken token `https://example.com/long/path`, which itself holds no line
break, carriage return, or indent byte, and the whole input is consumed. -/
theorem url_rejoin_example :
    (((adjust_line_wrapping (FragmentList.parse urlRejoinInput false) false 28).2.filter
        Fragment.is_plain_text).map Fragment.data).flatten
      = [46, 46, 46, 85, 82, 76, 58, 32] ++ urlRejoinToken ++ [0x0A, 0x0A] ∧
    urlRejoinToken <:+:
      (((adjust_line_wrapping (FragmentList.parse urlRejoinInput false) false 28).2.filter
        Fragment.is_plain_text).map Fragment.data).flatten ∧
    (urlRejoinToken.all fun b => decide (b ≠ 0x0A ∧ b ≠ 0x0D ∧ b ≠ 0x20)) = true ∧
    (adjust_line_wrapping (FragmentList.parse urlRejoinInput false) false 28).1
      = urlRejoinInput.length := by
  refine ⟨by decide, ⟨[46, 46, 46, 85, 82, 76, 58, 32], [0x0A, 0x0A], by decide⟩,
    by decide, by decide⟩

/-! ### Claim C5 -/

/-- C5 counterexample: for the single plain fragment `abc` — a non-empty
fragment list in which the scan confirms nothing (no line boundary) — the
buffer-full policy `allow_incomplete = true` still consumes zero bytes and
releases no fragment: the code's fallback requires more than one fragment
(`cursor.len() > 1`). -/
theorem single_fragment_not_force_released :
    adjust_line_wrapping [⟨[0x61, 0x62, 0x63], none⟩] true 28 = (0, []) ∧
    adjust_line_wrapping [⟨[0x61, 0x62, 0x63], none⟩] false 28 = (0, []) ∧
    ([⟨[0x61, 0x62, 0x63], none⟩] : List Fragment) ≠ [] := by
  refine ⟨by decide, by decide, by decide⟩

/-- C5 (amended): when `adjust_line_wrapping` runs with
`allow_incomplete = true`, its normal scan confirmed zero fragments
(cursor position 0) and — unlike the single-fragment counterexample — more
than one fragment remains in the cursor, with all fragment data non-empty,
then exactly one fragment is force-released and the returned consumed byte
count is positive. -/
theorem adjust_force_release (frs : List Fragment) (tw : Nat)
    (hdata : ∀ f ∈ frs, f.data ≠ [])
    (hpos : (adjustCursor frs tw).position = 0)
    (hlen : 1 < (adjustCursor frs tw).fragments.length) :
    0 < (adjust_line_wrapping frs true tw).1 ∧
      (adjust_line_wrapping frs true tw).2.length = 1 := by
  obtain ⟨hlens, hposOff⟩ := @cursorInv_adjustCursor frs tw hdata
  unfold adjust_line_wrapping
  simp only []
  rw [if_pos ⟨trivial, hpos, hlen⟩]
  unfold FragmentCursor.truncate FragmentCursor.setPosition
  simp only []
  constructor
  · rw [if_neg one_ne_zero]
    have hne : (adjustCursor frs tw).end_offsets ≠ [] := by
      intro hnil
      rw [hnil] at hlens
      simp at hlens
      omega
    obtain ⟨y, ys, hy⟩ := List.exists_cons_of_ne_nil hne
    rw [hy]
    exact hposOff y (hy ▸ List.mem_cons_self y ys)
  · simp [List.length_take]
    omega

/-- Witness for `adjust_force_release`: two plain fragments with no line
boundary anywhere. -/
theorem adjust_force_release_witness :
    ((∀ f ∈ ([⟨[0x61, 0x62], none⟩, ⟨[0x63, 0x64], none⟩] : List Fragment), f.data ≠ []) ∧
      (adjustCursor [⟨[0x61, 0x62], none⟩, ⟨[0x63, 0x64], none⟩] 28).position = 0 ∧
      1 < (adjustCursor [⟨[0x61, 0x62], none⟩, ⟨[0x63, 0x64], none⟩] 28).fragments.length) ∧
    (0 < (adjust_line_wrapping [⟨[0x61, 0x62], none⟩, ⟨[0x63, 0x64], none⟩] true 28).1 ∧
      (adjust_line_wrapping [⟨[0x61, 0x62], none⟩, ⟨[0x63, 0x64], none⟩] true 28).2.length = 1) :=
  ⟨⟨by decide, by decide, by decide⟩,
    adjust_force_release [⟨[0x61, 0x62], none⟩, ⟨[0x63, 0x64], none⟩] 28
      (by decide) (by decide) (by decide)⟩

end Caloud
